import Mathlib

/-!
Verification of the tar-backed virtual-filesystem shell emulator
(`emulator.py`).  Python strings are modelled as lists of Unicode code
points (`PyStr := List Nat`), byte strings as lists of byte values.
The path algebra (`posixpath.join` / `posixpath.normpath`), the UTF-8
strict and replacing decoders, and each command handler are embedded
as executable Lean functions mirroring the source line by line.
-/

abbrev PyStr := List Nat

/-- Code points of a Lean string literal, used to write Python string
constants of the program. -/
def s2p (s : String) : PyStr := s.data.map Char.toNat

/-- Python `str.isspace` on a single code point (the whitespace set used
by `str.split()`, `str.strip()` and `str.rstrip()`). -/
def pyIsSpace (c : Nat) : Bool :=
  c ∈ [9, 10, 11, 12, 13, 28, 29, 30, 31, 32, 133, 160, 5760,
       8192, 8193, 8194, 8195, 8196, 8197, 8198, 8199, 8200, 8201, 8202,
       8232, 8233, 8239, 8287, 12288]

/-- Helper for Python `str.split()`: accumulate the current token
(reversed) while scanning. -/
def pySplitWsAux : PyStr → PyStr → List PyStr
  | [], cur => if cur = [] then [] else [cur.reverse]
  | c :: cs, cur =>
    if pyIsSpace c then
      (if cur = [] then pySplitWsAux cs [] else cur.reverse :: pySplitWsAux cs [])
    else pySplitWsAux cs (c :: cur)

/-- Python `str.split()` with no arguments: split on runs of whitespace,
discarding empty tokens. -/
def pySplitWs (s : PyStr) : List PyStr := pySplitWsAux s []

/-- Python `str.rstrip()` (no argument): remove trailing whitespace. -/
def pyRstrip (s : PyStr) : PyStr := (s.reverse.dropWhile pyIsSpace).reverse

/-- Python `str.strip()` (no argument): remove leading and trailing
whitespace. -/
def pyStrip (s : PyStr) : PyStr :=
  ((s.dropWhile pyIsSpace).reverse.dropWhile pyIsSpace).reverse

/-- Python `str.lstrip('/')`. -/
def lstripSlash (s : PyStr) : PyStr := s.dropWhile (fun c => c = 47)

/-- Python `str.strip('/')`. -/
def stripSlash (s : PyStr) : PyStr :=
  ((s.dropWhile (fun c => c = 47)).reverse.dropWhile (fun c => c = 47)).reverse

/-- `Emulator.normalize_member_name`: drop a leading `./` if present. -/
def normalize_member_name (s : PyStr) : PyStr :=
  if s.take 2 = [46, 47] then s.drop 2 else s

/-- `posixpath.join` restricted to two arguments, as used by the code. -/
def pyJoin (a b : PyStr) : PyStr :=
  if b.take 1 = [47] then b
  else if a = [] ∨ a.getLast? = some 47 then a ++ b
  else a ++ [47] ++ b

/-- Split on a separator code point; a list of `n` separators yields
`n + 1` (possibly empty) parts, as Python `str.split(sep)` does. -/
def sepSplit (c : Nat) : PyStr → List PyStr
  | [] => [[]]
  | b :: bs =>
    if b = c then [] :: sepSplit c bs
    else
      match sepSplit c bs with
      | p :: ps => (b :: p) :: ps
      | [] => [[b]]

/-- One step of `posixpath.normpath`'s component loop (`new_comps`
accumulation: skip empty and `.`, append ordinary components, let `..`
pop the accumulator, clamped at root for absolute paths). -/
def normStep (isAbs : Bool) (acc : List PyStr) (comp : PyStr) : List PyStr :=
  if comp = [] ∨ comp = [46] then acc
  else if comp ≠ [46, 46] ∨ (isAbs = false ∧ acc = []) ∨
          (acc ≠ [] ∧ acc.getLast? = some [46, 46]) then acc ++ [comp]
  else if acc = [] then acc else acc.dropLast

/-- `'/'.join(comps)` and friends. -/
def interSlash : List PyStr → PyStr
  | [] => []
  | [x] => x
  | x :: xs => x ++ [47] ++ interSlash xs

/-- `posixpath.normpath`, embedded from the CPython source: compute the
number of initial slashes kept (1, or exactly 2 for a `//`-prefixed
path), split on `/`, run the component loop, and reassemble. -/
def pyNormpath (p : PyStr) : PyStr :=
  if p = [] then [46]
  else
    let k : Nat :=
      if p.take 1 = [47] then
        (if p.take 2 = [47, 47] ∧ p.take 3 ≠ [47, 47, 47] then 2 else 1)
      else 0
    let comps := (sepSplit 47 p).foldl (normStep (k ≠ 0)) []
    let out := List.replicate k 47 ++ interSlash comps
    if out = [] then [46] else out

/-- Byte-level line splitting as `f.readline()` produces it: each line
runs up to and including a `\n` byte (10); a final line without `\n` is
kept; empty content yields no lines. -/
def splitAfterNl : List Nat → List (List Nat)
  | [] => []
  | b :: bs =>
    if b = 10 then [10] :: splitAfterNl bs
    else
      match splitAfterNl bs with
      | [] => [[b]]
      | l :: ls => (b :: l) :: ls

/-- Is a byte a UTF-8 continuation byte? -/
def isCont (b : Nat) : Bool := 0x80 ≤ b ∧ b ≤ 0xBF

/-- Valid second byte of a three-byte sequence with lead `b` (CPython's
range checks: `E0` forbids overlongs, `ED` forbids surrogates). -/
def cont2of3 (b b2 : Nat) : Bool :=
  if b = 0xE0 then 0xA0 ≤ b2 ∧ b2 ≤ 0xBF
  else if b = 0xED then 0x80 ≤ b2 ∧ b2 ≤ 0x9F
  else isCont b2

/-- Valid second byte of a four-byte sequence with lead `b` (`F0`
forbids overlongs, `F4` caps at U+10FFFF). -/
def cont2of4 (b b2 : Nat) : Bool :=
  if b = 0xF0 then 0x90 ≤ b2 ∧ b2 ≤ 0xBF
  else if b = 0xF4 then 0x80 ≤ b2 ∧ b2 ≤ 0x8F
  else isCont b2

/-- Scalar value of a two-byte sequence. -/
def dec2 (b b2 : Nat) : Nat := (b - 0xC0) * 0x40 + (b2 - 0x80)

/-- Scalar value of a three-byte sequence. -/
def dec3 (b b2 b3 : Nat) : Nat :=
  (b - 0xE0) * 0x1000 + (b2 - 0x80) * 0x40 + (b3 - 0x80)

/-- Scalar value of a four-byte sequence. -/
def dec4 (b b2 b3 b4 : Nat) : Nat :=
  (b - 0xF0) * 0x40000 + (b2 - 0x80) * 0x1000 + (b3 - 0x80) * 0x40 + (b4 - 0x80)

/-- Strict UTF-8 decoding, as `bytes.decode('utf-8')`: `none` models a
raised `UnicodeDecodeError`. -/
def utf8DecodeStrict : List Nat → Option (List Nat)
  | [] => some []
  | b :: bs =>
    if b ≤ 0x7F then (utf8DecodeStrict bs).map (b :: ·)
    else if 0xC2 ≤ b ∧ b ≤ 0xDF then
      match bs with
      | b2 :: rest =>
        if isCont b2 then (utf8DecodeStrict rest).map (dec2 b b2 :: ·) else none
      | [] => none
    else if 0xE0 ≤ b ∧ b ≤ 0xEF then
      match bs with
      | b2 :: b3 :: rest =>
        if cont2of3 b b2 ∧ isCont b3 then
          (utf8DecodeStrict rest).map (dec3 b b2 b3 :: ·)
        else none
      | _ => none
    else if 0xF0 ≤ b ∧ b ≤ 0xF4 then
      match bs with
      | b2 :: b3 :: b4 :: rest =>
        if cont2of4 b b2 ∧ isCont b3 ∧ isCont b4 then
          (utf8DecodeStrict rest).map (dec4 b b2 b3 b4 :: ·)
        else none
      | _ => none
    else none

/-- Worker for `utf8DecodeReplace`; the fuel only serves structural
termination and is always at least the list length at every call. -/
def utf8DecodeReplaceAux : Nat → List Nat → List Nat
  | _, [] => []
  | 0, _ :: _ => []
  | fuel + 1, b :: bs =>
    if b ≤ 0x7F then b :: utf8DecodeReplaceAux fuel bs
    else if 0xC2 ≤ b ∧ b ≤ 0xDF then
      match bs with
      | b2 :: rest =>
        if isCont b2 then dec2 b b2 :: utf8DecodeReplaceAux fuel rest
        else 0xFFFD :: utf8DecodeReplaceAux fuel (b2 :: rest)
      | [] => [0xFFFD]
    else if 0xE0 ≤ b ∧ b ≤ 0xEF then
      match bs with
      | b2 :: rest =>
        if cont2of3 b b2 then
          match rest with
          | b3 :: rest2 =>
            if isCont b3 then dec3 b b2 b3 :: utf8DecodeReplaceAux fuel rest2
            else 0xFFFD :: utf8DecodeReplaceAux fuel (b3 :: rest2)
          | [] => [0xFFFD]
        else 0xFFFD :: utf8DecodeReplaceAux fuel (b2 :: rest)
      | [] => [0xFFFD]
    else if 0xF0 ≤ b ∧ b ≤ 0xF4 then
      match bs with
      | b2 :: rest =>
        if cont2of4 b b2 then
          match rest with
          | b3 :: rest2 =>
            if isCont b3 then
              match rest2 with
              | b4 :: rest3 =>
                if isCont b4 then dec4 b b2 b3 b4 :: utf8DecodeReplaceAux fuel rest3
                else 0xFFFD :: utf8DecodeReplaceAux fuel (b4 :: rest3)
              | [] => [0xFFFD]
            else 0xFFFD :: utf8DecodeReplaceAux fuel (b3 :: rest2)
          | [] => [0xFFFD]
        else 0xFFFD :: utf8DecodeReplaceAux fuel (b2 :: rest)
      | [] => [0xFFFD]
    else 0xFFFD :: utf8DecodeReplaceAux fuel bs

/-- UTF-8 decoding with `errors='replace'`, as `bytes.decode('utf-8',
errors='replace')`: each maximal subpart of an ill-formed sequence
becomes one U+FFFD (65533) and decoding resumes at the next byte. -/
def utf8DecodeReplace (l : List Nat) : List Nat := utf8DecodeReplaceAux l.length l

/-- UTF-8 byte length of one code point. -/
def utf8CharLen (c : Nat) : Nat :=
  if c < 0x80 then 1 else if c < 0x800 then 2 else if c < 0x10000 then 3 else 4

/-- `len(s.encode('utf-8'))` for a decoded text. -/
def utf8Len (s : PyStr) : Nat := (s.map utf8CharLen).sum

/-- Decimal rendering of a number, as Python string formatting does. -/
def natStr (n : Nat) : PyStr := (Nat.repr n).data.map Char.toNat

/-- An archive member as `tarfile` exposes it: the stored `name`, the
owner field `uname`, and the byte content; `content = none` models a
member for which `extractfile` returns `None` (not a regular file). -/
structure Entry where
  name : PyStr
  uname : PyStr
  content : Option (List Nat)
deriving DecidableEq

/-- The stored name with the `./` storage artifact removed, as every
`normalize_member_name(member.name)` call computes. -/
def strippedName (m : Entry) : PyStr := normalize_member_name m.name

/-- `tarfile.getmember`: exact match against the raw stored names, the
last occurrence winning as in CPython's `_getmember`. -/
def tarGetmember (members : List Entry) (key : PyStr) : Option Entry :=
  members.reverse.find? (fun m => m.name = key)

/-- The exact-lookup key `normalize_member_name(filepath.lstrip('/'))`
computed by `head`, `chown` and `wc` from the current directory and the
command's filename operand. -/
def lookupKey (cur f : PyStr) : PyStr :=
  normalize_member_name (lstripSlash (pyNormpath (pyJoin cur f)))

/-- The prefix `Emulator.ls` scans for: `current_dir.strip('/')` plus a
trailing slash when nonempty. -/
def lsPrefix (cur : PyStr) : PyStr :=
  let p := stripSlash cur
  if p = [] then [] else p ++ [47]

/-- First component of `suffix.split('/')`. -/
def firstSeg (s : PyStr) : PyStr := s.takeWhile (fun c => ¬ c = 47)

/-- One iteration of `Emulator.ls`'s member loop on an already stripped
member name: entries under the prefix contribute the first segment of
their remainder, deduplicated (Python accumulates into a `set`;
insertion order is irrelevant because the result is sorted). -/
def lsStep (cur : PyStr) (acc : List PyStr) (n : PyStr) : List PyStr :=
  if (lsPrefix cur).isPrefixOf n then
    let c := firstSeg (n.drop (lsPrefix cur).length)
    if c ≠ [] ∧ ¬ c ∈ acc then acc ++ [c] else acc
  else acc

/-- The deduplicated child-name collection of `Emulator.ls`'s loop. -/
def lsChildrenRaw (cur : PyStr) (members : List Entry) : List PyStr :=
  members.foldl (fun acc m => lsStep cur acc (strippedName m)) []

/-- Code-point-wise lexicographic order on strings, the order Python's
`sorted` uses on `str`. -/
def lexLe : PyStr → PyStr → Bool
  | [], _ => true
  | _ :: _, [] => false
  | x :: xs, y :: ys => if x < y then true else if x = y then lexLe xs ys else false

/-- `sorted(contents)` in `Emulator.ls`. -/
def lsSorted (cur : PyStr) (members : List Entry) : List PyStr :=
  List.insertionSort (fun a b => lexLe a b = true) (lsChildrenRaw cur members)

/-- The single chunk `Emulator.ls` writes: each child printed with
`end='  '`, then the final `print()` newline. -/
def lsOutput (cur : PyStr) (members : List Entry) : PyStr :=
  (lsSorted cur members).foldl (fun acc c => acc ++ c ++ [32, 32]) [] ++ [10]

/-- `Emulator.cd`: returns the new `current_dir` and an optional error
message (`none` on success). -/
def cdRun (cur : PyStr) (members : List Entry) (p : PyStr) : PyStr × Option PyStr :=
  let newPath := pyNormpath (pyJoin cur p)
  if newPath = [47] then ([47], none)
  else
    let pre := normalize_member_name (stripSlash newPath) ++ [47]
    if members.any (fun m => pre.isPrefixOf (strippedName m)) then (newPath, none)
    else (cur, some (s2p "cd: " ++ p ++ s2p ": No such file or directory"))

/-- The code point of the ASCII apostrophe used in the error texts. -/
def apos : Nat := 39

/-- `head`'s per-line loop: read at most `n` more lines, decode each
strictly, stop with the decode-error message on the first failure.
Returns the list of printed lines. -/
def headLoop (f : PyStr) : Nat → List (List Nat) → List PyStr
  | 0, _ => []
  | _ + 1, [] => []
  | n + 1, l :: ls =>
    match utf8DecodeStrict l with
    | none => [s2p "head: error reading " ++ [apos] ++ f ++ [apos] ++
               s2p ": invalid encoding"]
    | some s => pyRstrip s :: headLoop f n ls

/-- `Emulator.head`: the list of lines it prints for one invocation. -/
def headRun (members : List Entry) (cur f : PyStr) : List PyStr :=
  match tarGetmember members (lookupKey cur f) with
  | none => [s2p "head: cannot open " ++ [apos] ++ f ++ [apos] ++
             s2p " for reading: No such file or directory"]
  | some m =>
    match m.content with
    | none => [s2p "head: cannot open " ++ [apos] ++ f ++ [apos] ++
               s2p " for reading: Not a regular file"]
    | some c => headLoop f 10 (splitAfterNl c)

/-- `chown`'s member loop: update the first member whose raw stored
name equals the key; `none` when no member matches. -/
def chownUpd : List Entry → PyStr → PyStr → Option (List Entry)
  | [], _, _ => none
  | m :: ms, key, o =>
    if m.name = key then some ({ m with uname := o } :: ms)
    else (chownUpd ms key o).map (m :: ·)

/-- `Emulator.chown`: the updated member list and the printed line. -/
def chownRun (members : List Entry) (cur o f : PyStr) : List Entry × PyStr :=
  match chownUpd members (lookupKey cur f) o with
  | some ms =>
    (ms, s2p "Changed owner of " ++ [apos] ++ f ++ [apos] ++ s2p " to " ++
         [apos] ++ o ++ [apos])
  | none =>
    (members, s2p "chown: cannot access " ++ [apos] ++ f ++ [apos] ++
              s2p ": No such file or directory")

/-- `Emulator.wc`: the single line it prints. -/
def wcRun (members : List Entry) (cur f : PyStr) : PyStr :=
  match tarGetmember members (lookupKey cur f) with
  | none => s2p "wc: " ++ f ++ s2p ": No such file or directory"
  | some m =>
    match m.content with
    | none => s2p "wc: " ++ f ++ s2p ": No such file or directory"
    | some c =>
      let content := utf8DecodeReplace c
      let lines := content.count 10
      let words := (pySplitWs content).length
      let bytes := utf8Len content
      natStr lines ++ [32] ++ natStr words ++ [32] ++ natStr bytes ++ [32] ++ f

/-- The mutable session state: `current_dir` and the member list (whose
`uname` fields `chown` mutates in place). -/
structure SessionState where
  dir : PyStr
  members : List Entry
deriving DecidableEq

/-- Result of dispatching one tokenized command line: the new state,
the printed chunks, and whether `exit_shell` was triggered. -/
structure StepOut where
  st : SessionState
  out : List PyStr
  exit : Bool
deriving DecidableEq

/-- `Emulator.execute_command` after the `split()` (the unconditional
log write is modelled separately by the session loops): route on the
first token, check operand count, run the handler. -/
def dispatch (st : SessionState) (args : List PyStr) : StepOut :=
  match args with
  | [] => ⟨st, [], false⟩
  | cmd :: rest =>
    if cmd = s2p "ls" then ⟨st, [lsOutput st.dir st.members], false⟩
    else if cmd = s2p "cd" then
      match rest with
      | p :: _ =>
        let r := cdRun st.dir st.members p
        ⟨⟨r.1, st.members⟩, (match r.2 with | some e => [e] | none => []), false⟩
      | [] => ⟨st, [s2p "cd: missing operand"], false⟩
    else if cmd = s2p "exit" then ⟨st, [], true⟩
    else if cmd = s2p "head" then
      match rest with
      | f :: _ => ⟨st, headRun st.members st.dir f, false⟩
      | [] => ⟨st, [s2p "head: missing file operand"], false⟩
    else if cmd = s2p "chown" then
      match rest with
      | o :: f :: _ =>
        let r := chownRun st.members st.dir o f
        ⟨⟨st.dir, r.1⟩, [r.2], false⟩
      | _ => ⟨st, [s2p "chown: missing operand"], false⟩
    else if cmd = s2p "wc" then
      match rest with
      | f :: _ => ⟨st, [wcRun st.members st.dir f], false⟩
      | [] => ⟨st, [s2p "wc: missing file operand"], false⟩
    else ⟨st, [cmd ++ s2p ": command not found"], false⟩

/-- Required operand count of each command; surplus tokens are unused
by `execute_command`'s positional accesses. -/
def cmdArity (cmd : PyStr) : Nat :=
  if cmd = s2p "cd" ∨ cmd = s2p "head" ∨ cmd = s2p "wc" then 1
  else if cmd = s2p "chown" then 2
  else 0

/-- `run_startup_script`'s loop: strip each line, skip blanks, log the
stripped text and dispatch it; `sys.exit` from an `exit` command stops
the whole process.  Returns the final state, the log rows written, and
whether the process terminated. -/
def runScriptLoop (st : SessionState) (user : PyStr) :
    List PyStr → SessionState × List (List PyStr) × Bool
  | [] => (st, [], false)
  | l :: ls =>
    let t := pyStrip l
    if t = [] then runScriptLoop st user ls
    else
      let r := dispatch st (pySplitWs t)
      if r.exit then (r.st, [[user, t]], true)
      else
        let rec' := runScriptLoop r.st user ls
        (rec'.1, [user, t] :: rec'.2.1, rec'.2.2)

/-- `shell_loop`: every line read is logged verbatim and dispatched
(blank lines included); the loop stops at `exit` or end of input. -/
def runInterLoop (st : SessionState) (user : PyStr) :
    List PyStr → SessionState × List (List PyStr)
  | [] => (st, [])
  | l :: ls =>
    let r := dispatch st (pySplitWs l)
    if r.exit then (r.st, [[user, l]])
    else
      let rec' := runInterLoop r.st user ls
      (rec'.1, [user, l] :: rec'.2)

/-- The complete log record of a session run: header row, then one row
per `execute_command` call, startup script first, interactive loop
after (skipped entirely when the script exited the process). -/
def sessionLog (members : List Entry) (user : PyStr)
    (script inter : List PyStr) : List (List PyStr) :=
  let s := runScriptLoop ⟨[47], members⟩ user script
  [s2p "User", s2p "Action"] ::
    (if s.2.2 then s.2.1 else s.2.1 ++ (runInterLoop s.1 user inter).2)

/-- The archive built by `test_emulator.py`'s `setUpClass`. -/
def testMembers : List Entry :=
  [⟨s2p "file1.txt", s2p "", some (s2p "Hello World\nThis is a test\n")⟩,
   ⟨s2p "file2.txt", s2p "", some (s2p "Another file\nWith some text.\n")⟩,
   ⟨s2p "dir1/file3.txt", s2p "", some (s2p "File in a directory.\nLine 2.\n")⟩,
   ⟨s2p "dir2/", s2p "", some []⟩,
   ⟨s2p "dir2/file4.txt", s2p "", some (s2p "Another file in dir2.\n")⟩,
   ⟨s2p "empty_dir/", s2p "", some []⟩,
   ⟨s2p "empty.txt", s2p "", some []⟩,
   ⟨s2p "binaryfile", s2p "", some [0xFF, 0xFE]⟩]

/-! ### Structural facts about the path algebra -/

/-- A clean path component: nonempty, not `.`, not `..`, slash-free.
These are exactly the components `posixpath.normpath` can emit for an
absolute input. -/
def cleanSeg (s : PyStr) : Prop := s ≠ [] ∧ s ≠ [46] ∧ s ≠ [46, 46] ∧ ¬ 47 ∈ s

instance (s : PyStr) : Decidable (cleanSeg s) := by unfold cleanSeg; infer_instance

/-- The shape of every `posixpath.normpath` output for an absolute
input: one or two leading slashes followed by clean components. -/
def Shape (d : PyStr) : Prop :=
  ∃ k segs, (k = 1 ∨ k = 2) ∧ (∀ s ∈ segs, cleanSeg s) ∧
    d = List.replicate k 47 ++ interSlash segs

/-- The directories a session can actually occupy: `current_dir` starts
at `/` and changes only through successful `cd` commands. -/
inductive Reachable (members : List Entry) : PyStr → Prop
  | root : Reachable members [47]
  | step (d p : PyStr) : Reachable members d → (cdRun d members p).2 = none →
      Reachable members (cdRun d members p).1

/-- `C` is a child directory of `D`: a nonempty slash-free name such
that some entry's stripped name extends `D`'s scan prefix by `C/`. -/
def childDir (members : List Entry) (D C : PyStr) : Prop :=
  C ≠ [] ∧ ¬ 47 ∈ C ∧
    ∃ m ∈ members, ∃ t, strippedName m = (lsPrefix D ++ C ++ [47]) ++ t

/-- What `print(item, end='  ')` in a loop emits. -/
def tailJoin : List PyStr → PyStr
  | [] => []
  | c :: cs => c ++ [32, 32] ++ tailJoin cs

/-- Does a raw line trigger `exit_shell` when dispatched (first token
is `exit`)? -/
def isExitLine (l : PyStr) : Bool :=
  match pySplitWs l with
  | t :: _ => t = s2p "exit"
  | [] => false

/-- Keep lines up to and including the first whose dispatch exits. -/
def stopAfterExit : List PyStr → List PyStr
  | [] => []
  | l :: ls => if isExitLine l then [l] else l :: stopAfterExit ls

/-- The raw lines that reach `execute_command` during a whole session:
script lines are stripped with blanks skipped, interactive lines run
verbatim, and everything after the first `exit` is never dispatched
(an `exit` in the script skips the interactive phase entirely). -/
def dispatchedSession (script inter : List PyStr) : List PyStr :=
  let s := (script.map pyStrip).filter (fun l => ¬ l = [])
  if s.any isExitLine then stopAfterExit s else s ++ stopAfterExit inter

/-- The owner a name lookup sees, as the tests read it back:
the first member whose raw stored name matches. -/
def findOwner (members : List Entry) (key : PyStr) : Option PyStr :=
  (members.find? (fun m => m.name = key)).map Entry.uname

/-- The output format the specification describes for `ls`: names
separated (not terminated) by two spaces. -/
def sepJoin : List PyStr → PyStr
  | [] => []
  | [c] => c
  | c :: cs => c ++ [32, 32] ++ sepJoin cs

/-! ### Theorems -/

example : wcRun testMembers (s2p "/") (s2p "file1.txt") =
    s2p "2 6 27 file1.txt" := by decide
example : wcRun testMembers (s2p "/") (s2p "empty.txt") =
    s2p "0 0 0 empty.txt" := by decide
example : wcRun testMembers (s2p "/") (s2p "nope.txt") =
    s2p "wc: nope.txt: No such file or directory" := by decide
example : headRun testMembers (s2p "/") (s2p "file1.txt") =
    [s2p "Hello World", s2p "This is a test"] := by decide
example : headRun testMembers (s2p "/") (s2p "binaryfile") =
    [s2p "head: error reading " ++ [apos] ++ s2p "binaryfile" ++ [apos] ++
     s2p ": invalid encoding"] := by decide
example : cdRun (s2p "/") testMembers (s2p "dir2") = (s2p "/dir2", none) := by decide
example : cdRun (s2p "/") testMembers (s2p "nonexistent") =
    (s2p "/", some (s2p "cd: nonexistent: No such file or directory")) := by decide
example : cdRun (s2p "/dir1") testMembers (s2p "..") = (s2p "/", none) := by decide
example : lsOutput (s2p "/dir1") testMembers = s2p "file3.txt  \n" := by decide
example : lsOutput (s2p "/empty_dir") testMembers = s2p "\n" := by decide
example : lsOutput (s2p "/") testMembers =
    s2p "binaryfile  dir1  dir2  empty.txt  empty_dir  file1.txt  file2.txt  \n" := by
  decide
example : (chownRun testMembers (s2p "/") (s2p "newowner") (s2p "file1.txt")).2 =
    s2p "Changed owner of " ++ [apos] ++ s2p "file1.txt" ++ [apos] ++
    s2p " to " ++ [apos] ++ s2p "newowner" ++ [apos] := by decide
example :
    sessionLog testMembers (s2p "u") [s2p "ls", s2p "cd dir1"] [s2p "exit"] =
      [[s2p "User", s2p "Action"], [s2p "u", s2p "ls"], [s2p "u", s2p "cd dir1"],
       [s2p "u", s2p "exit"]] := by decide

theorem mem_of_getLast?_eq {α : Type} : ∀ {l : List α} {a : α},
    l.getLast? = some a → a ∈ l := by
  intro l
  induction l with
  | nil => intro a h; simp [List.getLast?] at h
  | cons b t ih =>
    intro a h
    cases t with
    | nil => simp [List.getLast?] at h; simp [h]
    | cons c t' =>
      rw [List.getLast?_cons_cons] at h
      exact List.mem_cons_of_mem _ (ih h)

theorem isPrefixOf_iff_exists {l₁ l₂ : PyStr} :
    l₁.isPrefixOf l₂ = true ↔ ∃ t, l₂ = l₁ ++ t := by
  induction l₁ generalizing l₂ with
  | nil => simp [List.isPrefixOf]
  | cons a t ih =>
    cases l₂ with
    | nil => simp [List.isPrefixOf]
    | cons b t2 =>
      simp only [List.isPrefixOf, Bool.and_eq_true, beq_iff_eq, ih, List.cons_append,
        List.cons.injEq]
      constructor
      · rintro ⟨rfl, u, rfl⟩; exact ⟨u, rfl, rfl⟩
      · rintro ⟨u, rfl, rfl⟩; exact ⟨rfl, u, rfl⟩

theorem take1_eq_iff {l : PyStr} {a : Nat} : l.take 1 = [a] ↔ ∃ t, l = a :: t := by
  cases l with
  | nil => simp
  | cons b t => simp [List.take]

theorem interSlash_concat : ∀ (xs : List PyStr) (y : PyStr), xs ≠ [] →
    interSlash (xs ++ [y]) = interSlash xs ++ [47] ++ y := by
  intro xs
  induction xs with
  | nil => intro y h; exact absurd rfl h
  | cons x rest ih =>
    intro y _
    cases rest with
    | nil => simp [interSlash]
    | cons x2 r2 =>
      have h2 := ih y (by simp)
      simp only [List.cons_append] at h2 ⊢
      simp only [interSlash]
      rw [h2]
      simp [List.append_assoc]

theorem interSlash_ne_nil {segs : List PyStr} (h : segs ≠ [])
    (hc : ∀ s ∈ segs, cleanSeg s) : interSlash segs ≠ [] := by
  cases segs with
  | nil => exact absurd rfl h
  | cons s rest =>
    have hs : s ≠ [] := (hc s (by simp)).1
    cases rest with
    | nil => simpa [interSlash] using hs
    | cons x r => simp only [interSlash]; intro he; simp at he

theorem interSlash_head_ne {segs : List PyStr}
    (hc : ∀ s ∈ segs, s ≠ [] ∧ ¬ 47 ∈ s) : (interSlash segs).take 1 ≠ [47] := by
  cases segs with
  | nil => simp [interSlash]
  | cons s rest =>
    obtain ⟨hs, hn⟩ := hc s (by simp)
    cases s with
    | nil => exact absurd rfl hs
    | cons c s' =>
      have hcne : c ≠ 47 := by intro h; exact hn (by simp [h])
      cases rest with
      | nil => simp [interSlash, List.take]; intro h; exact absurd h hcne
      | cons x r =>
        simp [interSlash, List.take]
        intro h; exact absurd h hcne

theorem interSlash_getLast_ne {segs : List PyStr}
    (hc : ∀ s ∈ segs, cleanSeg s) : ¬ (interSlash segs).getLast? = some 47 := by
  induction segs with
  | nil => simp [interSlash]
  | cons s rest ih =>
    have hs := hc s (by simp)
    cases rest with
    | nil =>
      simp only [interSlash]
      intro h
      exact hs.2.2.2 (mem_of_getLast?_eq h)
    | cons x r =>
      have hrest : ∀ t ∈ x :: r, cleanSeg t := fun t ht => hc t (by simp [ht])
      have hne : interSlash (x :: r) ≠ [] := interSlash_ne_nil (by simp) hrest
      simp only [interSlash]
      rw [List.append_assoc, List.getLast?_append_of_ne_nil _ (by simp)]
      obtain ⟨y, ys, hy⟩ := List.exists_cons_of_ne_nil hne
      rw [hy, List.singleton_append, List.getLast?_cons_cons, ← hy]
      exact ih hrest

theorem sepSplit_ne_nil (c : Nat) : ∀ (l : PyStr), sepSplit c l ≠ [] := by
  intro l
  induction l with
  | nil => simp [sepSplit]
  | cons b bs ih =>
    simp only [sepSplit]
    split
    · simp
    · cases h : sepSplit c bs with
      | nil => exact absurd h ih
      | cons p ps => simp [h]

theorem sepSplit_sep (c : Nat) (l : PyStr) :
    sepSplit c (c :: l) = [] :: sepSplit c l := by simp [sepSplit]

theorem not_mem_of_mem_sepSplit (c : Nat) : ∀ (l : PyStr), ∀ x ∈ sepSplit c l,
    ¬ c ∈ x := by
  intro l
  induction l with
  | nil => intro x hx; simp [sepSplit] at hx; simp [hx]
  | cons b bs ih =>
    intro x hx
    simp only [sepSplit] at hx
    by_cases hb : b = c
    · simp [hb] at hx
      rcases hx with rfl | hx
      · simp
      · exact ih x hx
    · simp [hb] at hx
      cases h : sepSplit c bs with
      | nil => exact absurd h (sepSplit_ne_nil c bs)
      | cons p ps =>
        rw [h] at hx
        simp only [List.mem_cons] at hx
        rcases hx with rfl | hx
        · intro hm
          rcases List.mem_cons.mp hm with rfl | hm
          · exact hb rfl
          · exact ih p (by rw [h]; simp) hm
        · exact ih x (by rw [h]; exact List.mem_cons_of_mem _ hx)

theorem sepSplit_seg : ∀ (s t : PyStr), ¬ 47 ∈ s → ∀ p ps,
    sepSplit 47 t = p :: ps → sepSplit 47 (s ++ t) = (s ++ p) :: ps := by
  intro s
  induction s with
  | nil => intro t _ p ps h; simpa using h
  | cons b s' ih =>
    intro t hb p ps h
    have hbne : ¬ b = 47 := fun hc => hb (by simp [hc])
    simp only [List.cons_append, sepSplit, if_neg hbne, List.append_eq]
    rw [ih t (fun hc => hb (by simp [hc])) p ps h]

theorem sepSplit_seg_sep (s t : PyStr) (h : ¬ 47 ∈ s) :
    sepSplit 47 (s ++ 47 :: t) = s :: sepSplit 47 t := by
  have := sepSplit_seg s (47 :: t) h [] (sepSplit 47 t) (sepSplit_sep 47 t)
  simpa using this

theorem sepSplit_repl : ∀ (k : Nat) (t : PyStr),
    sepSplit 47 (List.replicate k 47 ++ t) = List.replicate k [] ++ sepSplit 47 t := by
  intro k
  induction k with
  | zero => simp
  | succ n ih =>
    intro t
    simp only [List.replicate_succ, List.cons_append, sepSplit_sep]
    rw [ih t]

theorem sepSplit_inter : ∀ (segs : List PyStr), (∀ x ∈ segs, ¬ 47 ∈ x) →
    segs ≠ [] → sepSplit 47 (interSlash segs) = segs := by
  intro segs
  induction segs with
  | nil => intro _ h; exact absurd rfl h
  | cons s rest ih =>
    intro hall _
    cases rest with
    | nil =>
      have : sepSplit 47 (s ++ ([] : PyStr)) = (s ++ []) :: [] :=
        sepSplit_seg s [] (hall s (by simp)) [] [] (by simp [sepSplit])
      simpa [interSlash] using this
    | cons x r =>
      have hih := ih (fun y hy => hall y (List.mem_cons_of_mem _ hy)) (by simp)
      simp only [interSlash, List.append_assoc, List.singleton_append]
      rw [sepSplit_seg_sep _ _ (hall s (by simp)), hih]

theorem normStep_nil (b : Bool) (acc : List PyStr) : normStep b acc [] = acc := by
  simp [normStep]

theorem normStep_app (b : Bool) (acc : List PyStr) (comp : PyStr)
    (h1 : comp ≠ []) (h2 : comp ≠ [46]) (h3 : comp ≠ [46, 46]) :
    normStep b acc comp = acc ++ [comp] := by
  simp [normStep, h1, h2, h3]

theorem normStep_pop (acc : List PyStr) (h : ∀ x ∈ acc, x ≠ [46, 46]) :
    normStep true acc [46, 46] = acc.dropLast := by
  by_cases ha : acc = []
  · subst ha; simp [normStep]
  · have hlast : ¬ acc.getLast? = some [46, 46] :=
      fun hc => (h _ (mem_of_getLast?_eq hc)) rfl
    simp [normStep, ha, hlast]

theorem normStep_cleanSeg (acc : List PyStr) (comp : PyStr)
    (hacc : ∀ x ∈ acc, cleanSeg x) (hc : ¬ 47 ∈ comp) :
    ∀ x ∈ normStep true acc comp, cleanSeg x := by
  unfold normStep
  split
  · exact hacc
  next h1 =>
    split
    next h2 =>
      intro x hx
      rcases List.mem_append.mp hx with hx | hx
      · exact hacc x hx
      · simp only [List.mem_singleton] at hx
        subst hx
        have hne : x ≠ [] ∧ x ≠ [46] := by
          constructor <;> intro hc2 <;> exact h1 (by simp [hc2])
        have hdd : x ≠ [46, 46] := by
          rcases h2 with h2 | h2 | h2
          · exact h2
          · simp at h2
          · exact fun _ => (hacc _ (mem_of_getLast?_eq h2.2)).2.2.1 rfl
        exact ⟨hne.1, hne.2, hdd, hc⟩
    · split
      · exact hacc
      · exact fun x hx => hacc x (List.dropLast_subset _ hx)

theorem foldl_normStep_repl (b : Bool) (acc : List PyStr) : ∀ (k : Nat),
    List.foldl (normStep b) acc (List.replicate k []) = acc := by
  intro k
  induction k with
  | zero => simp
  | succ n ih => simp [List.replicate_succ, normStep_nil, ih]

theorem foldl_normStep_clean (b : Bool) : ∀ (comps : List PyStr) (acc : List PyStr),
    (∀ x ∈ comps, x ≠ [] ∧ x ≠ [46] ∧ x ≠ [46, 46]) →
    List.foldl (normStep b) acc comps = acc ++ comps := by
  intro comps
  induction comps with
  | nil => simp
  | cons x rest ih =>
    intro acc h
    obtain ⟨h1, h2, h3⟩ := h x (by simp)
    simp only [List.foldl_cons, normStep_app b acc x h1 h2 h3]
    rw [ih (acc ++ [x]) (fun y hy => h y (List.mem_cons_of_mem _ hy))]
    simp

theorem foldl_normStep_cleanSeg : ∀ (comps : List PyStr) (acc : List PyStr),
    (∀ x ∈ acc, cleanSeg x) → (∀ x ∈ comps, ¬ 47 ∈ x) →
    ∀ x ∈ List.foldl (normStep true) acc comps, cleanSeg x := by
  intro comps
  induction comps with
  | nil => intro acc h _ x hx; exact h x hx
  | cons cpr rest ih =>
    intro acc h hcm x hx
    simp only [List.foldl_cons] at hx
    exact ih (normStep true acc cpr)
      (normStep_cleanSeg acc cpr h (hcm cpr (by simp)))
      (fun y hy => hcm y (List.mem_cons_of_mem _ hy)) x hx

theorem normpath_shape (p : PyStr) (h : p.take 1 = [47]) : Shape (pyNormpath p) := by
  have hne : p ≠ [] := by
    intro hp; rw [hp] at h; simp at h
  simp only [pyNormpath, if_neg hne, if_pos h]
  by_cases h2 : p.take 2 = [47, 47] ∧ ¬ p.take 3 = [47, 47, 47]
  · rw [if_pos h2]
    have hout : ¬ (List.replicate 2 47 ++
        interSlash (List.foldl (normStep (decide ¬ (2 : Nat) = 0)) [] (sepSplit 47 p)) = []) := by
      simp
    rw [if_neg hout]
    exact ⟨2, _, Or.inr rfl,
      foldl_normStep_cleanSeg _ _ (by simp) (not_mem_of_mem_sepSplit 47 p), rfl⟩
  · rw [if_neg h2]
    have hout : ¬ (List.replicate 1 47 ++
        interSlash (List.foldl (normStep (decide ¬ (1 : Nat) = 0)) [] (sepSplit 47 p)) = []) := by
      simp
    rw [if_neg hout]
    exact ⟨1, _, Or.inl rfl,
      foldl_normStep_cleanSeg _ _ (by simp) (not_mem_of_mem_sepSplit 47 p), rfl⟩

theorem normpath_build (k : Nat) (t : PyStr) (hk : k = 1 ∨ k = 2)
    (ht : t.take 1 ≠ [47]) :
    pyNormpath (List.replicate k 47 ++ t) =
      (let out := List.replicate k 47 ++
        interSlash (List.foldl (normStep true) [] (sepSplit 47 t))
       if out = [] then [46] else out) := by
  rcases hk with rfl | rfl
  · have e1 : List.replicate 1 47 ++ t = 47 :: t := by simp
    rw [e1]
    have hne : (47 :: t) ≠ [] := by simp
    have ht1 : (47 :: t).take 1 = [47] := by simp
    have ht2 : ¬ ((47 :: t).take 2 = [47, 47] ∧ ¬ (47 :: t).take 3 = [47, 47, 47]) := by
      intro hcc
      exact ht (by simpa [List.take_succ_cons] using hcc.1)
    simp only [pyNormpath, if_neg hne, if_pos ht1, if_neg ht2]
    have hdec : (decide ¬ (1 : Nat) = 0) = true := by decide
    rw [hdec, sepSplit_sep]
    simp only [List.foldl_cons, normStep_nil]
  · have e1 : List.replicate 2 47 ++ t = 47 :: 47 :: t := by simp [List.replicate]
    rw [e1]
    have hne : (47 :: 47 :: t) ≠ [] := by simp
    have ht1 : (47 :: 47 :: t).take 1 = [47] := by simp
    have ht2 : (47 :: 47 :: t).take 2 = [47, 47] ∧ ¬ (47 :: 47 :: t).take 3 = [47, 47, 47] := by
      refine ⟨by simp, fun hcc => ?_⟩
      exact ht (by simpa [List.take_succ_cons] using hcc)
    simp only [pyNormpath, if_neg hne, if_pos ht1, if_pos ht2]
    have hdec : (decide ¬ (2 : Nat) = 0) = true := by decide
    rw [hdec, sepSplit_sep, sepSplit_sep]
    simp only [List.foldl_cons, normStep_nil]

theorem normpath_canon (k : Nat) (segs : List PyStr) (hk : k = 1 ∨ k = 2)
    (hc : ∀ s ∈ segs, cleanSeg s) :
    pyNormpath (List.replicate k 47 ++ interSlash segs) =
      List.replicate k 47 ++ interSlash segs := by
  have hhead : (interSlash segs).take 1 ≠ [47] :=
    interSlash_head_ne (fun x hx => ⟨(hc x hx).1, (hc x hx).2.2.2⟩)
  rw [normpath_build k (interSlash segs) hk hhead]
  by_cases hs : segs = []
  · subst hs
    simp only [interSlash, sepSplit, List.foldl_cons, normStep_nil, List.foldl_nil]
    have : ¬ (List.replicate k 47 ++ interSlash [] = []) := by
      rcases hk with rfl | rfl <;> simp [interSlash]
    simp only [interSlash] at this ⊢
    rw [if_neg this]
  · rw [sepSplit_inter segs (fun x hx => (hc x hx).2.2.2) hs,
       foldl_normStep_clean true segs []
         (fun x hx => ⟨(hc x hx).1, (hc x hx).2.1, (hc x hx).2.2.1⟩)]
    have : ¬ (List.replicate k 47 ++ interSlash segs = []) := by
      rcases hk with rfl | rfl <;> simp
    simp only [List.nil_append]
    rw [if_neg this]

theorem normpath_parent (k : Nat) (segs : List PyStr) (C : PyStr)
    (hk : k = 1 ∨ k = 2) (hc : ∀ s ∈ segs, cleanSeg s) (hC : cleanSeg C) :
    pyNormpath (List.replicate k 47 ++ interSlash ((segs ++ [C]) ++ [[46, 46]])) =
      List.replicate k 47 ++ interSlash segs := by
  have hall : ∀ x ∈ (segs ++ [C]) ++ [[46, 46]], x ≠ [] ∧ ¬ 47 ∈ x := by
    intro x hx
    rcases List.mem_append.mp hx with hx | hx
    · rcases List.mem_append.mp hx with hx | hx
      · exact ⟨(hc x hx).1, (hc x hx).2.2.2⟩
      · simp only [List.mem_singleton] at hx; subst hx; exact ⟨hC.1, hC.2.2.2⟩
    · simp only [List.mem_singleton] at hx; subst hx; refine ⟨by simp, by decide⟩
  have hhead : (interSlash ((segs ++ [C]) ++ [[46, 46]])).take 1 ≠ [47] :=
    interSlash_head_ne hall
  rw [normpath_build k _ hk hhead]
  rw [sepSplit_inter _ (fun x hx => (hall x hx).2) (by simp)]
  rw [List.foldl_append]
  rw [foldl_normStep_clean true (segs ++ [C]) []
    (by
      intro x hx
      rcases List.mem_append.mp hx with hx | hx
      · exact ⟨(hc x hx).1, (hc x hx).2.1, (hc x hx).2.2.1⟩
      · simp only [List.mem_singleton] at hx; subst hx
        exact ⟨hC.1, hC.2.1, hC.2.2.1⟩)]
  simp only [List.nil_append, List.foldl_cons, List.foldl_nil]
  rw [normStep_pop (segs ++ [C])
    (by
      intro x hx
      rcases List.mem_append.mp hx with hx | hx
      · exact (hc x hx).2.2.1
      · simp only [List.mem_singleton] at hx; subst hx; exact hC.2.2.1)]
  rw [List.dropLast_concat]
  have : ¬ (List.replicate k 47 ++ interSlash segs = []) := by
    rcases hk with rfl | rfl <;> simp
  rw [if_neg this]

theorem dropWhile47_repl : ∀ (k : Nat) (t : PyStr),
    List.dropWhile (fun c => c = 47) (List.replicate k 47 ++ t) =
      List.dropWhile (fun c => c = 47) t := by
  intro k
  induction k with
  | zero => simp
  | succ n ih => intro t; simp [List.replicate_succ, List.dropWhile, ih]

theorem dropWhile47_id {t : PyStr} (h : t.take 1 ≠ [47]) :
    List.dropWhile (fun c => c = 47) t = t := by
  cases t with
  | nil => rfl
  | cons c r =>
    have : ¬ c = 47 := fun hc => h (by simp [hc])
    simp [List.dropWhile, this]

theorem rstrip47_id {t : PyStr} (h : ¬ t.getLast? = some 47) :
    (t.reverse.dropWhile (fun c => c = 47)).reverse = t := by
  cases hrev : t.reverse with
  | nil =>
    have : t = [] := by simpa using congrArg List.reverse hrev
    simp [this]
  | cons c r =>
    have hc : c ≠ 47 := by
      intro hc
      apply h
      rw [← List.head?_reverse, hrev, hc]
      rfl
    rw [List.dropWhile_cons_of_neg (by simpa using hc), ← hrev, List.reverse_reverse]

theorem lstripSlash_shape (k : Nat) (segs : List PyStr) (hc : ∀ s ∈ segs, cleanSeg s) :
    lstripSlash (List.replicate k 47 ++ interSlash segs) = interSlash segs := by
  unfold lstripSlash
  rw [dropWhile47_repl, dropWhile47_id
    (interSlash_head_ne (fun x hx => ⟨(hc x hx).1, (hc x hx).2.2.2⟩))]

theorem stripSlash_shape (k : Nat) (segs : List PyStr) (hc : ∀ s ∈ segs, cleanSeg s) :
    stripSlash (List.replicate k 47 ++ interSlash segs) = interSlash segs := by
  unfold stripSlash
  rw [dropWhile47_repl, dropWhile47_id
    (interSlash_head_ne (fun x hx => ⟨(hc x hx).1, (hc x hx).2.2.2⟩))]
  exact rstrip47_id (interSlash_getLast_ne hc)

theorem inter_take2_ne (segs : List PyStr) (hc : ∀ s ∈ segs, cleanSeg s) :
    ¬ (interSlash segs).take 2 = [46, 47] := by
  cases segs with
  | nil => simp [interSlash]
  | cons s rest =>
    obtain ⟨hs, hdot, _, hfree⟩ := hc s (by simp)
    obtain ⟨c, s', rfl⟩ := List.exists_cons_of_ne_nil hs
    have hinter : ∃ X, interSlash ((c :: s') :: rest) = (c :: s') ++ X := by
      cases rest with
      | nil => exact ⟨[], by simp [interSlash]⟩
      | cons y ys =>
        exact ⟨[47] ++ interSlash (y :: ys), by simp [interSlash, List.append_assoc]⟩
    obtain ⟨X, hX⟩ := hinter
    rw [hX]
    by_cases hc46 : c = 46
    · subst hc46
      cases s' with
      | nil => exact absurd rfl hdot
      | cons c2 s'' =>
        have h2 : c2 ≠ 47 := fun h => hfree (by simp [h])
        simp [List.take_succ_cons, h2]
    · simp [List.take_succ_cons, hc46]

theorem normalize_id {t : PyStr} (h : ¬ t.take 2 = [46, 47]) :
    normalize_member_name t = t := by
  unfold normalize_member_name
  rw [if_neg h]

theorem pyJoin_seg (k : Nat) (segs : List PyStr) (C : PyStr) (hk : k = 1 ∨ k = 2)
    (hc : ∀ s ∈ segs, cleanSeg s) (hC : C ≠ []) (hCf : ¬ 47 ∈ C) :
    pyJoin (List.replicate k 47 ++ interSlash segs) C =
      List.replicate k 47 ++ interSlash (segs ++ [C]) := by
  obtain ⟨c, C', rfl⟩ := List.exists_cons_of_ne_nil hC
  have hcC : ¬ c = 47 := fun h => hCf (by simp [h])
  have hb : ¬ (c :: C').take 1 = [47] := by simp [List.take_succ_cons, hcC]
  unfold pyJoin
  rw [if_neg hb]
  cases hsegs : segs with
  | nil =>
    have hlast : (List.replicate k 47 ++ interSlash ([] : List PyStr)).getLast? = some 47 := by
      rcases hk with rfl | rfl <;> simp [interSlash, List.replicate]
    rw [if_pos (Or.inr hlast)]
    simp [interSlash]
  | cons s rest =>
    rw [← hsegs]
    have hnil : ¬ (List.replicate k 47 ++ interSlash segs = []) := by
      rcases hk with rfl | rfl <;> simp
    have hne : interSlash segs ≠ [] :=
      interSlash_ne_nil (by rw [hsegs]; simp) hc
    have hlast : ¬ (List.replicate k 47 ++ interSlash segs).getLast? = some 47 := by
      rw [List.getLast?_append_of_ne_nil _ hne]
      exact interSlash_getLast_ne hc
    rw [if_neg (by
      rintro (h | h)
      · exact hnil h
      · exact hlast h)]
    rw [interSlash_concat segs (c :: C') (by rw [hsegs]; simp)]
    simp [List.append_assoc]

theorem pyJoin_under (k : Nat) (segs : List PyStr) (C : PyStr) (hk : k = 1 ∨ k = 2)
    (hc : ∀ s ∈ segs, cleanSeg s) (hC : cleanSeg C) :
    pyJoin (List.replicate k 47 ++ interSlash (segs ++ [C])) [46, 46] =
      List.replicate k 47 ++ interSlash ((segs ++ [C]) ++ [[46, 46]]) := by
  have hcall : ∀ s ∈ segs ++ [C], cleanSeg s := by
    intro x hx
    rcases List.mem_append.mp hx with hx | hx
    · exact hc x hx
    · simp only [List.mem_singleton] at hx; subst hx; exact hC
  have hb : ¬ ([46, 46] : PyStr).take 1 = [47] := by decide
  unfold pyJoin
  rw [if_neg hb]
  have hnil : ¬ (List.replicate k 47 ++ interSlash (segs ++ [C]) = []) := by
    rcases hk with rfl | rfl <;> simp
  have hne : interSlash (segs ++ [C]) ≠ [] := interSlash_ne_nil (by simp) hcall
  have hlast : ¬ (List.replicate k 47 ++ interSlash (segs ++ [C])).getLast? = some 47 := by
    rw [List.getLast?_append_of_ne_nil _ hne]
    exact interSlash_getLast_ne hcall
  rw [if_neg (by
    rintro (h | h)
    · exact hnil h
    · exact hlast h)]
  rw [interSlash_concat (segs ++ [C]) [46, 46] (by simp)]
  simp [List.append_assoc]

theorem pyJoin_abs (p b : PyStr) (h : p.take 1 = [47]) :
    (pyJoin p b).take 1 = [47] := by
  obtain ⟨t, rfl⟩ := take1_eq_iff.mp h
  unfold pyJoin
  split
  · assumption
  · split <;> simp [List.take_succ_cons]

theorem cdRun_cases (cur : PyStr) (members : List Entry) (p : PyStr) :
    (pyNormpath (pyJoin cur p) = [47] ∧ cdRun cur members p = ([47], none)) ∨
    (¬ pyNormpath (pyJoin cur p) = [47] ∧
      members.any (fun m =>
        (normalize_member_name (stripSlash (pyNormpath (pyJoin cur p))) ++ [47]).isPrefixOf
          (strippedName m)) = true ∧
      cdRun cur members p = (pyNormpath (pyJoin cur p), none)) ∨
    (¬ pyNormpath (pyJoin cur p) = [47] ∧
      members.any (fun m =>
        (normalize_member_name (stripSlash (pyNormpath (pyJoin cur p))) ++ [47]).isPrefixOf
          (strippedName m)) = false ∧
      cdRun cur members p =
        (cur, some (s2p "cd: " ++ p ++ s2p ": No such file or directory"))) := by
  by_cases h1 : pyNormpath (pyJoin cur p) = [47]
  · exact Or.inl ⟨h1, by simp [cdRun, h1]⟩
  · by_cases h2 : members.any (fun m =>
      (normalize_member_name (stripSlash (pyNormpath (pyJoin cur p))) ++ [47]).isPrefixOf
        (strippedName m)) = true
    · exact Or.inr (Or.inl ⟨h1, h2, by simp [cdRun, h1, h2]⟩)
    · exact Or.inr (Or.inr ⟨h1, by simpa using h2, by
        simp only [cdRun, if_neg h1]
        rw [if_neg h2]⟩)

theorem shape_take1 {d : PyStr} (h : Shape d) : d.take 1 = [47] := by
  obtain ⟨k, segs, hk, _, rfl⟩ := h
  rcases hk with rfl | rfl <;> simp [List.replicate]

theorem shape_root : Shape [47] :=
  ⟨1, [], Or.inl rfl, by simp, by simp [interSlash]⟩

theorem reachable_shape {members : List Entry} {D : PyStr}
    (h : Reachable members D) : Shape D := by
  induction h with
  | root => exact shape_root
  | step d p hd hnone ih =>
    rcases cdRun_cases d members p with ⟨_, he⟩ | ⟨_, _, he⟩ | ⟨_, _, he⟩
    · rw [he]; exact shape_root
    · rw [he]; exact normpath_shape _ (pyJoin_abs d p (shape_take1 ih))
    · rw [he] at hnone; simp at hnone

theorem reachable_exists {members : List Entry} {D : PyStr}
    (h : Reachable members D) (hne : D ≠ [47]) :
    members.any (fun m =>
      (normalize_member_name (stripSlash D) ++ [47]).isPrefixOf (strippedName m)) = true := by
  induction h with
  | root => exact absurd rfl hne
  | step d p hd hnone ih =>
    rcases cdRun_cases d members p with ⟨_, he⟩ | ⟨_, h2, he⟩ | ⟨_, _, he⟩
    · rw [he] at hne; exact absurd rfl hne
    · rw [he] at hne ⊢; exact h2
    · rw [he] at hnone; simp at hnone

theorem shape_ne_root {k : Nat} {x : PyStr} (hk : k = 1 ∨ k = 2) (hx : x ≠ []) :
    List.replicate k 47 ++ x ≠ [47] := by
  rcases hk with rfl | rfl
  · simpa [List.replicate] using hx
  · simp [List.replicate]

theorem lsPrefix_shape (k : Nat) (segs : List PyStr) (hc : ∀ s ∈ segs, cleanSeg s) :
    lsPrefix (List.replicate k 47 ++ interSlash segs) =
      (if interSlash segs = [] then [] else interSlash segs ++ [47]) := by
  unfold lsPrefix
  rw [stripSlash_shape k segs hc]

theorem prefix_eq_inter_concat (k : Nat) (segs : List PyStr) (C : PyStr)
    (hsc : ∀ s ∈ segs, cleanSeg s) :
    lsPrefix (List.replicate k 47 ++ interSlash segs) ++ C ++ [47] =
      interSlash (segs ++ [C]) ++ [47] := by
  rw [lsPrefix_shape k segs hsc]
  by_cases hsegs : segs = []
  · subst hsegs; simp [interSlash]
  · have hne : interSlash segs ≠ [] := interSlash_ne_nil hsegs hsc
    rw [if_neg hne, interSlash_concat segs C hsegs]

theorem cdRun_into_child (k : Nat) (segs : List PyStr) (members : List Entry)
    (C : PyStr) (hk : k = 1 ∨ k = 2) (hsc : ∀ s ∈ segs, cleanSeg s)
    (hC : cleanSeg C)
    (hchild : ∃ m ∈ members, ∃ t, strippedName m =
      (lsPrefix (List.replicate k 47 ++ interSlash segs) ++ C ++ [47]) ++ t) :
    cdRun (List.replicate k 47 ++ interSlash segs) members C =
      (List.replicate k 47 ++ interSlash (segs ++ [C]), none) := by
  have hscC : ∀ s ∈ segs ++ [C], cleanSeg s := by
    intro x hx
    rcases List.mem_append.mp hx with hx | hx
    · exact hsc x hx
    · simp only [List.mem_singleton] at hx; subst hx; exact hC
  have e2 : pyNormpath (pyJoin (List.replicate k 47 ++ interSlash segs) C) =
      List.replicate k 47 ++ interSlash (segs ++ [C]) := by
    rw [pyJoin_seg k segs C hk hsc hC.1 hC.2.2.2]
    exact normpath_canon k (segs ++ [C]) hk hscC
  have hne : List.replicate k 47 ++ interSlash (segs ++ [C]) ≠ [47] :=
    shape_ne_root hk (interSlash_ne_nil (by simp) hscC)
  have hstrip : normalize_member_name
      (stripSlash (List.replicate k 47 ++ interSlash (segs ++ [C]))) =
        interSlash (segs ++ [C]) := by
    rw [stripSlash_shape k (segs ++ [C]) hscC]
    exact normalize_id (inter_take2_ne (segs ++ [C]) hscC)
  have hany : members.any (fun m =>
      (normalize_member_name (stripSlash (List.replicate k 47 ++
        interSlash (segs ++ [C]))) ++ [47]).isPrefixOf (strippedName m)) = true := by
    obtain ⟨m, hm, t, hmt⟩ := hchild
    rw [prefix_eq_inter_concat k segs C hsc] at hmt
    refine List.any_eq_true.mpr ⟨m, hm, ?_⟩
    rw [hstrip]
    exact isPrefixOf_iff_exists.mpr ⟨t, hmt⟩
  simp only [cdRun, e2, if_neg hne, hany, if_pos]

theorem cdRun_dotdot (k : Nat) (segs : List PyStr) (members : List Entry)
    (C : PyStr) (hk : k = 1 ∨ k = 2) (hsc : ∀ s ∈ segs, cleanSeg s)
    (hC : cleanSeg C)
    (hreach : Reachable members (List.replicate k 47 ++ interSlash segs)) :
    cdRun (List.replicate k 47 ++ interSlash (segs ++ [C])) members [46, 46] =
      (List.replicate k 47 ++ interSlash segs, none) := by
  have e4 : pyNormpath (pyJoin (List.replicate k 47 ++ interSlash (segs ++ [C]))
      [46, 46]) = List.replicate k 47 ++ interSlash segs := by
    rw [pyJoin_under k segs C hk hsc hC]
    exact normpath_parent k segs C hk hsc hC
  by_cases hroot : List.replicate k 47 ++ interSlash segs = [47]
  · rw [hroot] at e4 ⊢
    simp [cdRun, e4]
  · have hany := reachable_exists hreach hroot
    simp only [cdRun, e4, if_neg hroot, hany, if_pos]

theorem lexLe_trans : ∀ a b c : PyStr, lexLe a b = true → lexLe b c = true →
    lexLe a c = true := by
  intro a
  induction a with
  | nil => intro b c _ _; simp [lexLe]
  | cons x xs ih =>
    intro b c hab hbc
    cases b with
    | nil => simp [lexLe] at hab
    | cons y ys =>
      cases c with
      | nil => simp [lexLe] at hbc
      | cons z zs =>
        simp only [lexLe] at hab hbc ⊢
        by_cases h1 : x < y
        · by_cases h2 : y < z
          · simp [Nat.lt_trans h1 h2]
          · by_cases h3 : y = z
            · subst h3; simp [h1]
            · simp [h2, h3] at hbc
        · by_cases h4 : x = y
          · subst h4
            simp only [if_neg h1, if_pos rfl] at hab
            by_cases h2 : x < z
            · simp [h2]
            · by_cases h3 : x = z
              · subst h3
                simp only [if_neg h2, if_pos rfl] at hbc ⊢
                exact ih ys zs hab hbc
              · simp [h2, h3] at hbc
          · simp [h1, h4] at hab

theorem lexLe_total : ∀ a b : PyStr, lexLe a b = true ∨ lexLe b a = true := by
  intro a
  induction a with
  | nil => intro b; left; simp [lexLe]
  | cons x xs ih =>
    intro b
    cases b with
    | nil => right; simp [lexLe]
    | cons y ys =>
      rcases Nat.lt_trichotomy x y with h | h | h
      · left; simp [lexLe, h]
      · subst h
        rcases ih ys with hy | hy
        · left; simp [lexLe, hy]
        · right; simp [lexLe, hy]
      · right; simp [lexLe, h]

theorem foldl_lsStep_nodup (cur : PyStr) : ∀ (ns : List PyStr) (acc : List PyStr),
    acc.Nodup → (List.foldl (lsStep cur) acc ns).Nodup := by
  intro ns
  induction ns with
  | nil => intro acc h; exact h
  | cons n rest ih =>
    intro acc h
    simp only [List.foldl_cons]
    refine ih _ ?_
    simp only [lsStep]
    split
    · split
      next hc =>
        refine List.Nodup.append h (by simp) ?_
        intro x hx hy
        simp only [List.mem_singleton] at hy
        subst hy
        exact hc.2 hx
      · exact h
    · exact h

theorem mem_foldl_lsStep (cur : PyStr) : ∀ (ns : List PyStr) (acc : List PyStr)
    (x : PyStr), x ∈ List.foldl (lsStep cur) acc ns ↔
      x ∈ acc ∨ (x ≠ [] ∧ ∃ n ∈ ns, (lsPrefix cur).isPrefixOf n = true ∧
        firstSeg (n.drop (lsPrefix cur).length) = x) := by
  intro ns
  induction ns with
  | nil => intro acc x; simp
  | cons n rest ih =>
    intro acc x
    simp only [List.foldl_cons, ih, List.mem_cons]
    constructor
    · rintro (hx | hx)
      · simp only [lsStep] at hx
        split at hx
        next hpre =>
          split at hx
          next hc =>
            rcases List.mem_append.mp hx with hx | hx
            · exact Or.inl hx
            · simp only [List.mem_singleton] at hx
              subst hx
              exact Or.inr ⟨hc.1, n, Or.inl rfl, hpre, rfl⟩
          · exact Or.inl hx
        · exact Or.inl hx
      · exact Or.inr ⟨hx.1, hx.2.choose, Or.inr hx.2.choose_spec.1,
          hx.2.choose_spec.2⟩
    · rintro (hx | ⟨hne, m, hm | hm, hpre, hseg⟩)
      · left
        simp only [lsStep]
        split <;> try split
        all_goals first
          | exact hx
          | exact List.mem_append.mpr (Or.inl hx)
      · rw [hm] at hpre hseg
        by_cases hin : x ∈ acc
        · left
          simp only [lsStep]
          split <;> try split
          all_goals first
            | exact hin
            | exact List.mem_append.mpr (Or.inl hin)
        · left
          simp only [lsStep]
          rw [if_pos hpre, hseg, if_pos ⟨hne, hin⟩]
          simp
      · exact Or.inr ⟨hne, m, hm, hpre, hseg⟩

theorem foldl_tailJoin : ∀ (l : List PyStr) (acc : PyStr),
    List.foldl (fun a c => a ++ c ++ [32, 32]) acc l = acc ++ tailJoin l := by
  intro l
  induction l with
  | nil => intro acc; simp [tailJoin]
  | cons c cs ih =>
    intro acc
    simp only [List.foldl_cons, tailJoin, ih]
    simp [List.append_assoc]

theorem dispatch_ls (st : SessionState) (rest : List PyStr) :
    dispatch st (s2p "ls" :: rest) = ⟨st, [lsOutput st.dir st.members], false⟩ := by
  simp only [dispatch]
  simp

theorem dispatch_cd (st : SessionState) (p : PyStr) (rest : List PyStr) :
    dispatch st (s2p "cd" :: p :: rest) =
      ⟨⟨(cdRun st.dir st.members p).1, st.members⟩,
       (match (cdRun st.dir st.members p).2 with | some e => [e] | none => []),
       false⟩ := by
  simp only [dispatch]
  rw [if_neg (by decide)]
  simp

theorem dispatch_cd_missing (st : SessionState) :
    dispatch st [s2p "cd"] = ⟨st, [s2p "cd: missing operand"], false⟩ := by
  simp only [dispatch]
  rw [if_neg (by decide)]
  simp

theorem dispatch_exit_cmd (st : SessionState) (rest : List PyStr) :
    dispatch st (s2p "exit" :: rest) = ⟨st, [], true⟩ := by
  simp only [dispatch]
  rw [if_neg (by decide), if_neg (by decide)]
  simp

theorem dispatch_head (st : SessionState) (f : PyStr) (rest : List PyStr) :
    dispatch st (s2p "head" :: f :: rest) =
      ⟨st, headRun st.members st.dir f, false⟩ := by
  simp only [dispatch]
  rw [if_neg (by decide), if_neg (by decide), if_neg (by decide)]
  simp

theorem dispatch_head_missing (st : SessionState) :
    dispatch st [s2p "head"] = ⟨st, [s2p "head: missing file operand"], false⟩ := by
  simp only [dispatch]
  rw [if_neg (by decide), if_neg (by decide), if_neg (by decide)]
  simp

theorem dispatch_chown (st : SessionState) (o f : PyStr) (rest : List PyStr) :
    dispatch st (s2p "chown" :: o :: f :: rest) =
      ⟨⟨st.dir, (chownRun st.members st.dir o f).1⟩,
       [(chownRun st.members st.dir o f).2], false⟩ := by
  simp only [dispatch]
  rw [if_neg (by decide), if_neg (by decide), if_neg (by decide),
     if_neg (by decide)]
  simp

theorem dispatch_chown_missing0 (st : SessionState) :
    dispatch st [s2p "chown"] = ⟨st, [s2p "chown: missing operand"], false⟩ := by
  simp only [dispatch]
  rw [if_neg (by decide), if_neg (by decide), if_neg (by decide),
     if_neg (by decide)]
  simp

theorem dispatch_chown_missing1 (st : SessionState) (o : PyStr) :
    dispatch st [s2p "chown", o] = ⟨st, [s2p "chown: missing operand"], false⟩ := by
  simp only [dispatch]
  rw [if_neg (by decide), if_neg (by decide), if_neg (by decide),
     if_neg (by decide)]
  simp

theorem dispatch_wc (st : SessionState) (f : PyStr) (rest : List PyStr) :
    dispatch st (s2p "wc" :: f :: rest) =
      ⟨st, [wcRun st.members st.dir f], false⟩ := by
  simp only [dispatch]
  rw [if_neg (by decide), if_neg (by decide), if_neg (by decide),
     if_neg (by decide), if_neg (by decide)]
  simp

theorem dispatch_wc_missing (st : SessionState) :
    dispatch st [s2p "wc"] = ⟨st, [s2p "wc: missing file operand"], false⟩ := by
  simp only [dispatch]
  rw [if_neg (by decide), if_neg (by decide), if_neg (by decide),
     if_neg (by decide), if_neg (by decide)]
  simp

theorem dispatch_unknown (st : SessionState) (cmd : PyStr) (rest : List PyStr)
    (h1 : ¬ cmd = s2p "ls") (h2 : ¬ cmd = s2p "cd") (h3 : ¬ cmd = s2p "exit")
    (h4 : ¬ cmd = s2p "head") (h5 : ¬ cmd = s2p "chown") (h6 : ¬ cmd = s2p "wc") :
    dispatch st (cmd :: rest) = ⟨st, [cmd ++ s2p ": command not found"], false⟩ := by
  simp only [dispatch]
  rw [if_neg h1, if_neg h2, if_neg h3, if_neg h4, if_neg h5, if_neg h6]

theorem dispatch_exit_eq (st : SessionState) (l : PyStr) :
    (dispatch st (pySplitWs l)).exit = isExitLine l := by
  unfold isExitLine
  cases h : pySplitWs l with
  | nil => rfl
  | cons t rest =>
    by_cases h1 : t = s2p "ls"
    · subst h1; rw [dispatch_ls]; rfl
    · by_cases h2 : t = s2p "cd"
      · subst h2
        cases rest with
        | nil => rw [dispatch_cd_missing]; rfl
        | cons p r2 => rw [dispatch_cd]; rfl
      · by_cases h3 : t = s2p "exit"
        · subst h3; rw [dispatch_exit_cmd]; rfl
        · by_cases h4 : t = s2p "head"
          · subst h4
            cases rest with
            | nil => rw [dispatch_head_missing]; rfl
            | cons f r2 => rw [dispatch_head]; rfl
          · by_cases h5 : t = s2p "chown"
            · subst h5
              cases rest with
              | nil => rw [dispatch_chown_missing0]; rfl
              | cons o r2 =>
                cases r2 with
                | nil => rw [dispatch_chown_missing1]; rfl
                | cons f r3 => rw [dispatch_chown]; rfl
            · by_cases h6 : t = s2p "wc"
              · subst h6
                cases rest with
                | nil => rw [dispatch_wc_missing]; rfl
                | cons f r2 => rw [dispatch_wc]; rfl
              · rw [dispatch_unknown st t rest h1 h2 h3 h4 h5 h6]
                simp [h3]

theorem runInterLoop_rows (user : PyStr) : ∀ (lines : List PyStr) (st : SessionState),
    (runInterLoop st user lines).2 = (stopAfterExit lines).map (fun l => [user, l]) := by
  intro lines
  induction lines with
  | nil => intro st; simp [runInterLoop, stopAfterExit]
  | cons l ls ih =>
    intro st
    by_cases hex : (dispatch st (pySplitWs l)).exit = true
    · have hexit : isExitLine l = true := by rw [← dispatch_exit_eq st l]; exact hex
      simp [runInterLoop, hex, stopAfterExit, hexit]
    · have hexit : isExitLine l = false := by
        rw [← dispatch_exit_eq st l]; simpa using hex
      simp [runInterLoop, hex, stopAfterExit, hexit, ih]

theorem runScriptLoop_rows (user : PyStr) : ∀ (lines : List PyStr) (st : SessionState),
    (runScriptLoop st user lines).2.1 =
      (if ((lines.map pyStrip).filter (fun l => ¬ l = [])).any isExitLine
       then stopAfterExit ((lines.map pyStrip).filter (fun l => ¬ l = []))
       else (lines.map pyStrip).filter (fun l => ¬ l = [])).map (fun l => [user, l]) ∧
    (runScriptLoop st user lines).2.2 =
      ((lines.map pyStrip).filter (fun l => ¬ l = [])).any isExitLine := by
  intro lines
  induction lines with
  | nil => intro st; simp [runScriptLoop]
  | cons l ls ih =>
    intro st
    by_cases ht : pyStrip l = []
    · have e : runScriptLoop st user (l :: ls) = runScriptLoop st user ls := by
        simp [runScriptLoop, ht]
      have e2 : ((l :: ls).map pyStrip).filter (fun l => ¬ l = []) =
          (ls.map pyStrip).filter (fun l => ¬ l = []) := by
        simp [ht]
      rw [e, e2]
      exact ih st
    · have e2 : ((l :: ls).map pyStrip).filter (fun l => ¬ l = []) =
          pyStrip l :: (ls.map pyStrip).filter (fun l => ¬ l = []) := by
        simp [ht]
      rw [e2]
      by_cases hex : (dispatch st (pySplitWs (pyStrip l))).exit = true
      · have hexit : isExitLine (pyStrip l) = true := by
          rw [← dispatch_exit_eq st (pyStrip l)]; exact hex
        have e : runScriptLoop st user (l :: ls) =
            ((dispatch st (pySplitWs (pyStrip l))).st, [[user, pyStrip l]], true) := by
          simp [runScriptLoop, ht, hex]
        rw [e]
        simp [stopAfterExit, hexit, List.any_cons]
      · have hexit : isExitLine (pyStrip l) = false := by
          rw [← dispatch_exit_eq st (pyStrip l)]; simpa using hex
        obtain ⟨ih1, ih2⟩ := ih (dispatch st (pySplitWs (pyStrip l))).st
        have e : runScriptLoop st user (l :: ls) =
            ((runScriptLoop (dispatch st (pySplitWs (pyStrip l))).st user ls).1,
             [user, pyStrip l] ::
               (runScriptLoop (dispatch st (pySplitWs (pyStrip l))).st user ls).2.1,
             (runScriptLoop (dispatch st (pySplitWs (pyStrip l))).st user ls).2.2) := by
          simp [runScriptLoop, ht, hex]
        rw [e]
        have hc : (pyStrip l :: (ls.map pyStrip).filter (fun l => ¬ l = [])).any
            isExitLine = ((ls.map pyStrip).filter (fun l => ¬ l = [])).any isExitLine := by
          rw [List.any_cons, hexit]
          simp
        have hs : stopAfterExit (pyStrip l :: (ls.map pyStrip).filter (fun l => ¬ l = [])) =
            pyStrip l :: stopAfterExit ((ls.map pyStrip).filter (fun l => ¬ l = [])) := by
          simp [stopAfterExit, hexit]
        rw [hc, hs]
        refine ⟨?_, ?_⟩
        · rw [ih1]
          by_cases hany :
              ((ls.map pyStrip).filter (fun l => ¬ l = [])).any isExitLine = true
          · rw [if_pos hany, if_pos hany]
            simp
          · rw [if_neg hany, if_neg hany]
            simp
        · rw [ih2]

/-- C8 (amended): the log is the header row `User,Action` followed by
one row `username,line` per dispatched line, in order: every startup
line is recorded STRIPPED and blank startup lines are skipped, while
every interactive line is recorded verbatim, blank lines included;
recording stops right after the first `exit` line. -/
theorem session_log_rows (members : List Entry) (user : PyStr)
    (script inter : List PyStr) :
    sessionLog members user script inter =
      [s2p "User", s2p "Action"] ::
        (dispatchedSession script inter).map (fun l => [user, l]) := by
  simp only [sessionLog, dispatchedSession]
  obtain ⟨h1, h2⟩ := runScriptLoop_rows user script ⟨[47], members⟩
  rw [h1, h2]
  by_cases hany : ((script.map pyStrip).filter (fun l => ¬ l = [])).any isExitLine = true
  · rw [if_pos hany, if_pos hany, if_pos hany]
  · rw [if_neg hany, if_neg hany, if_neg hany, runInterLoop_rows user inter,
       List.map_append]

theorem headLoop_spec (f : PyStr) : ∀ (n : Nat) (ls : List (List Nat)),
    headLoop f n ls =
      ((ls.take n).takeWhile (fun l => (utf8DecodeStrict l).isSome)).map
        (fun l => pyRstrip ((utf8DecodeStrict l).getD [])) ++
      (if ((ls.take n).takeWhile (fun l => (utf8DecodeStrict l).isSome)).length <
          (ls.take n).length
       then [s2p "head: error reading " ++ [apos] ++ f ++ [apos] ++
             s2p ": invalid encoding"]
       else []) := by
  intro n
  induction n with
  | zero => intro ls; simp [headLoop]
  | succ nn ih =>
    intro ls
    cases ls with
    | nil => simp [headLoop]
    | cons l rest =>
      rw [List.take_succ_cons]
      cases hdec : utf8DecodeStrict l with
      | none =>
        simp [headLoop, hdec, List.takeWhile_cons]
      | some s =>
        simp only [headLoop, hdec]
        rw [ih rest]
        simp [List.takeWhile_cons, hdec, Nat.succ_lt_succ_iff, List.cons_append]

theorem takeWhile_all {α : Type} {p : α → Bool} : ∀ (l : List α),
    (∀ x ∈ l, p x = true) → l.takeWhile p = l := by
  intro l
  induction l with
  | nil => intro _; rfl
  | cons a t ih =>
    intro h
    rw [List.takeWhile_cons, if_pos (h a (by simp)), ih (fun x hx => h x (by simp [hx]))]

theorem splitAfterNl_nl (bs : List Nat) :
    splitAfterNl (10 :: bs) = [10] :: splitAfterNl bs := by simp [splitAfterNl]

theorem splitAfterNl_cons_ne {b : Nat} (h : ¬ b = 10) (bs : List Nat) :
    splitAfterNl (b :: bs) =
      (match splitAfterNl bs with
       | [] => [[b]]
       | l :: ls => (b :: l) :: ls) := by
  simp [splitAfterNl, h]

theorem splitAfterNl_ne_nil (b : Nat) (r : List Nat) : splitAfterNl (b :: r) ≠ [] := by
  simp only [splitAfterNl]
  split
  · simp
  · split <;> simp

theorem splitAfterNl_atom : ∀ (A rest : List Nat), A ≠ [] → (∀ x ∈ A, ¬ x = 10) →
    splitAfterNl (A ++ rest) =
      (match splitAfterNl rest with
       | [] => [A]
       | l :: ls => (A ++ l) :: ls) := by
  intro A
  induction A with
  | nil => intro rest h _; exact absurd rfl h
  | cons a A' ih =>
    intro rest _ h10
    have ha : ¬ a = 10 := h10 a (by simp)
    cases hA' : A' with
    | nil =>
      subst hA'
      simp only [List.singleton_append]
      rw [splitAfterNl_cons_ne ha]
    | cons a2 A'' =>
      rw [← hA']
      have hne : A' ≠ [] := by rw [hA']; simp
      rw [List.cons_append, splitAfterNl_cons_ne ha,
         ih rest hne (fun x hx => h10 x (List.mem_cons_of_mem _ hx))]
      cases h : splitAfterNl rest with
      | nil => simp
      | cons l ls => simp [List.cons_append]

theorem decode_step1 (b : Nat) : utf8DecodeStrict [b] =
    (if b ≤ 0x7F then (utf8DecodeStrict []).map (b :: ·)
     else if 0xC2 ≤ b ∧ b ≤ 0xDF then none
     else if 0xE0 ≤ b ∧ b ≤ 0xEF then none
     else if 0xF0 ≤ b ∧ b ≤ 0xF4 then none
     else none) := rfl

theorem decode_step2 (b b2 : Nat) : utf8DecodeStrict [b, b2] =
    (if b ≤ 0x7F then (utf8DecodeStrict [b2]).map (b :: ·)
     else if 0xC2 ≤ b ∧ b ≤ 0xDF then
       (if isCont b2 then (utf8DecodeStrict []).map (dec2 b b2 :: ·) else none)
     else if 0xE0 ≤ b ∧ b ≤ 0xEF then none
     else if 0xF0 ≤ b ∧ b ≤ 0xF4 then none
     else none) := rfl

theorem decode_step3 (b b2 b3 : Nat) : utf8DecodeStrict [b, b2, b3] =
    (if b ≤ 0x7F then (utf8DecodeStrict [b2, b3]).map (b :: ·)
     else if 0xC2 ≤ b ∧ b ≤ 0xDF then
       (if isCont b2 then (utf8DecodeStrict [b3]).map (dec2 b b2 :: ·) else none)
     else if 0xE0 ≤ b ∧ b ≤ 0xEF then
       (if cont2of3 b b2 ∧ isCont b3 then (utf8DecodeStrict []).map (dec3 b b2 b3 :: ·)
        else none)
     else if 0xF0 ≤ b ∧ b ≤ 0xF4 then none
     else none) := rfl

theorem decode_step4 (b b2 b3 b4 : Nat) (rest : List Nat) :
    utf8DecodeStrict (b :: b2 :: b3 :: b4 :: rest) =
      (if b ≤ 0x7F then (utf8DecodeStrict (b2 :: b3 :: b4 :: rest)).map (b :: ·)
       else if 0xC2 ≤ b ∧ b ≤ 0xDF then
         (if isCont b2 then (utf8DecodeStrict (b3 :: b4 :: rest)).map (dec2 b b2 :: ·)
          else none)
       else if 0xE0 ≤ b ∧ b ≤ 0xEF then
         (if cont2of3 b b2 ∧ isCont b3 then
            (utf8DecodeStrict (b4 :: rest)).map (dec3 b b2 b3 :: ·)
          else none)
       else if 0xF0 ≤ b ∧ b ≤ 0xF4 then
         (if cont2of4 b b2 ∧ isCont b3 ∧ isCont b4 then
            (utf8DecodeStrict rest).map (dec4 b b2 b3 b4 :: ·)
          else none)
       else none) := rfl

theorem decode_ascii {b : Nat} (hb : b ≤ 127) (bs : List Nat) :
    utf8DecodeStrict (b :: bs) = (utf8DecodeStrict bs).map (b :: ·) := by
  cases bs with
  | nil => rw [decode_step1, if_pos hb]
  | cons b2 bs2 =>
    cases bs2 with
    | nil => rw [decode_step2, if_pos hb]
    | cons b3 bs3 =>
      cases bs3 with
      | nil => rw [decode_step3, if_pos hb]
      | cons b4 bs4 => rw [decode_step4, if_pos hb]

theorem decode2 {b b2 : Nat} (hnb : ¬ b ≤ 127) (hr : 194 ≤ b ∧ b ≤ 223)
    (hc : isCont b2 = true) (rest : List Nat) :
    utf8DecodeStrict (b :: b2 :: rest) = (utf8DecodeStrict rest).map (dec2 b b2 :: ·) := by
  cases rest with
  | nil => rw [decode_step2, if_neg hnb, if_pos hr, if_pos hc]
  | cons b3 bs3 =>
    cases bs3 with
    | nil => rw [decode_step3, if_neg hnb, if_pos hr, if_pos hc]
    | cons b4 bs4 => rw [decode_step4, if_neg hnb, if_pos hr, if_pos hc]

theorem decode2_bad {b b2 : Nat} (hnb : ¬ b ≤ 127) (hr : 194 ≤ b ∧ b ≤ 223)
    (hnc : ¬ isCont b2 = true) (rest : List Nat) :
    utf8DecodeStrict (b :: b2 :: rest) = none := by
  cases rest with
  | nil => rw [decode_step2, if_neg hnb, if_pos hr, if_neg hnc]
  | cons b3 bs3 =>
    cases bs3 with
    | nil => rw [decode_step3, if_neg hnb, if_pos hr, if_neg hnc]
    | cons b4 bs4 => rw [decode_step4, if_neg hnb, if_pos hr, if_neg hnc]

theorem decode2_short {b : Nat} (hnb : ¬ b ≤ 127) (hr : 194 ≤ b ∧ b ≤ 223) :
    utf8DecodeStrict [b] = none := by
  rw [decode_step1, if_neg hnb, if_pos hr]

theorem decode3 {b b2 b3 : Nat} (hnb : ¬ b ≤ 127) (hnr : ¬ (194 ≤ b ∧ b ≤ 223))
    (hr3 : 224 ≤ b ∧ b ≤ 239) (hc : cont2of3 b b2 = true ∧ isCont b3 = true)
    (rest : List Nat) :
    utf8DecodeStrict (b :: b2 :: b3 :: rest) =
      (utf8DecodeStrict rest).map (dec3 b b2 b3 :: ·) := by
  cases rest with
  | nil => rw [decode_step3, if_neg hnb, if_neg hnr, if_pos hr3, if_pos hc]
  | cons b4 bs4 => rw [decode_step4, if_neg hnb, if_neg hnr, if_pos hr3, if_pos hc]

theorem decode3_bad {b b2 b3 : Nat} (hnb : ¬ b ≤ 127) (hnr : ¬ (194 ≤ b ∧ b ≤ 223))
    (hr3 : 224 ≤ b ∧ b ≤ 239) (hnc : ¬ (cont2of3 b b2 = true ∧ isCont b3 = true))
    (rest : List Nat) :
    utf8DecodeStrict (b :: b2 :: b3 :: rest) = none := by
  cases rest with
  | nil => rw [decode_step3, if_neg hnb, if_neg hnr, if_pos hr3, if_neg hnc]
  | cons b4 bs4 => rw [decode_step4, if_neg hnb, if_neg hnr, if_pos hr3, if_neg hnc]

theorem decode3_short1 {b : Nat} (hnb : ¬ b ≤ 127) (hnr : ¬ (194 ≤ b ∧ b ≤ 223))
    (hr3 : 224 ≤ b ∧ b ≤ 239) : utf8DecodeStrict [b] = none := by
  rw [decode_step1, if_neg hnb, if_neg hnr, if_pos hr3]

theorem decode3_short2 {b b2 : Nat} (hnb : ¬ b ≤ 127) (hnr : ¬ (194 ≤ b ∧ b ≤ 223))
    (hr3 : 224 ≤ b ∧ b ≤ 239) : utf8DecodeStrict [b, b2] = none := by
  rw [decode_step2, if_neg hnb, if_neg hnr, if_pos hr3]

theorem decode4 {b b2 b3 b4 : Nat} (hnb : ¬ b ≤ 127) (hnr : ¬ (194 ≤ b ∧ b ≤ 223))
    (hn3 : ¬ (224 ≤ b ∧ b ≤ 239)) (hr4 : 240 ≤ b ∧ b ≤ 244)
    (hc : cont2of4 b b2 = true ∧ isCont b3 = true ∧ isCont b4 = true)
    (rest : List Nat) :
    utf8DecodeStrict (b :: b2 :: b3 :: b4 :: rest) =
      (utf8DecodeStrict rest).map (dec4 b b2 b3 b4 :: ·) := by
  rw [decode_step4, if_neg hnb, if_neg hnr, if_neg hn3, if_pos hr4, if_pos hc]

theorem decode4_bad {b b2 b3 b4 : Nat} (hnb : ¬ b ≤ 127) (hnr : ¬ (194 ≤ b ∧ b ≤ 223))
    (hn3 : ¬ (224 ≤ b ∧ b ≤ 239)) (hr4 : 240 ≤ b ∧ b ≤ 244)
    (hnc : ¬ (cont2of4 b b2 = true ∧ isCont b3 = true ∧ isCont b4 = true))
    (rest : List Nat) :
    utf8DecodeStrict (b :: b2 :: b3 :: b4 :: rest) = none := by
  rw [decode_step4, if_neg hnb, if_neg hnr, if_neg hn3, if_pos hr4, if_neg hnc]

theorem decode4_short1 {b : Nat} (hnb : ¬ b ≤ 127) (hnr : ¬ (194 ≤ b ∧ b ≤ 223))
    (hn3 : ¬ (224 ≤ b ∧ b ≤ 239)) (hr4 : 240 ≤ b ∧ b ≤ 244) :
    utf8DecodeStrict [b] = none := by
  rw [decode_step1, if_neg hnb, if_neg hnr, if_neg hn3, if_pos hr4]

theorem decode4_short2 {b b2 : Nat} (hnb : ¬ b ≤ 127) (hnr : ¬ (194 ≤ b ∧ b ≤ 223))
    (hn3 : ¬ (224 ≤ b ∧ b ≤ 239)) (hr4 : 240 ≤ b ∧ b ≤ 244) :
    utf8DecodeStrict [b, b2] = none := by
  rw [decode_step2, if_neg hnb, if_neg hnr, if_neg hn3, if_pos hr4]

theorem decode4_short3 {b b2 b3 : Nat} (hnb : ¬ b ≤ 127) (hnr : ¬ (194 ≤ b ∧ b ≤ 223))
    (hn3 : ¬ (224 ≤ b ∧ b ≤ 239)) (hr4 : 240 ≤ b ∧ b ≤ 244) :
    utf8DecodeStrict [b, b2, b3] = none := by
  rw [decode_step3, if_neg hnb, if_neg hnr, if_neg hn3, if_pos hr4]

theorem decode_badlead {b : Nat} (hnb : ¬ b ≤ 127) (hnr : ¬ (194 ≤ b ∧ b ≤ 223))
    (hn3 : ¬ (224 ≤ b ∧ b ≤ 239)) (hn4 : ¬ (240 ≤ b ∧ b ≤ 244)) (bs : List Nat) :
    utf8DecodeStrict (b :: bs) = none := by
  cases bs with
  | nil => rw [decode_step1, if_neg hnb, if_neg hnr, if_neg hn3, if_neg hn4]
  | cons b2 bs2 =>
    cases bs2 with
    | nil => rw [decode_step2, if_neg hnb, if_neg hnr, if_neg hn3, if_neg hn4]
    | cons b3 bs3 =>
      cases bs3 with
      | nil => rw [decode_step3, if_neg hnb, if_neg hnr, if_neg hn3, if_neg hn4]
      | cons b4 bs4 => rw [decode_step4, if_neg hnb, if_neg hnr, if_neg hn3, if_neg hn4]

theorem isCont_ne10 {b : Nat} (h : isCont b = true) : ¬ b = 10 := by
  simp [isCont] at h
  omega

theorem cont2of3_ne10 {b b2 : Nat} (h : cont2of3 b b2 = true) : ¬ b2 = 10 := by
  unfold cont2of3 at h
  split_ifs at h <;> simp [isCont] at h <;> omega

theorem cont2of4_ne10 {b b2 : Nat} (h : cont2of4 b b2 = true) : ¬ b2 = 10 := by
  unfold cont2of4 at h
  split_ifs at h <;> simp [isCont] at h <;> omega

theorem isSome_map_eq {α β : Type} (f : α → β) (o : Option α) :
    (o.map f).isSome = o.isSome := by cases o <;> rfl

theorem pieces_step {A rest : List Nat} (hA : A ≠ []) (h10 : ∀ x ∈ A, ¬ x = 10)
    (hiso : ∀ t : List Nat, (utf8DecodeStrict (A ++ t)).isSome = (utf8DecodeStrict t).isSome)
    (_hrest : (utf8DecodeStrict rest).isSome = true)
    (ih : ∀ p ∈ splitAfterNl rest, (utf8DecodeStrict p).isSome = true) :
    ∀ p ∈ splitAfterNl (A ++ rest), (utf8DecodeStrict p).isSome = true := by
  intro p hp
  rw [splitAfterNl_atom A rest hA h10] at hp
  cases hsp : splitAfterNl rest with
  | nil =>
    rw [hsp] at hp
    simp only [List.mem_singleton] at hp
    subst hp
    have h0 := hiso []
    rw [List.append_nil] at h0
    rw [h0]
    rfl
  | cons l ls =>
    rw [hsp] at hp
    rcases List.mem_cons.mp hp with rfl | hpl
    · rw [hiso l]
      exact ih l (by rw [hsp]; simp)
    · exact ih p (by rw [hsp]; exact List.mem_cons_of_mem _ hpl)

/-- Strict decodability is inherited by every `readline` piece: a valid
multi-byte sequence never contains the byte 10, so line boundaries
never cut a UTF-8 sequence. -/
theorem decode_lines_ok : ∀ (c : List Nat), (utf8DecodeStrict c).isSome = true →
    ∀ p ∈ splitAfterNl c, (utf8DecodeStrict p).isSome = true := by
  intro c
  induction c using utf8DecodeStrict.induct with
  | case1 => intro _ p hp; simp [splitAfterNl] at hp
  | case2 b bs hb ih =>
    intro hsome p hp
    have hbs : (utf8DecodeStrict bs).isSome = true := by
      rw [decode_ascii hb, isSome_map_eq] at hsome
      exact hsome
    by_cases hb10 : b = 10
    · subst hb10
      rw [splitAfterNl_nl] at hp
      rcases List.mem_cons.mp hp with rfl | hp
      · decide
      · exact ih hbs p hp
    · exact pieces_step (A := [b]) (by simp) (by simpa using hb10)
        (fun t => by
          show (utf8DecodeStrict (b :: t)).isSome = (utf8DecodeStrict t).isSome
          rw [decode_ascii hb, isSome_map_eq]) hbs (ih hbs) p hp
  | case3 b hnb hr b2 rest hc ih =>
    intro hsome p hp
    have hrest : (utf8DecodeStrict rest).isSome = true := by
      rw [decode2 hnb hr hc, isSome_map_eq] at hsome
      exact hsome
    refine pieces_step (A := [b, b2]) (by simp) ?_
      (fun t => by
        show (utf8DecodeStrict (b :: b2 :: t)).isSome = (utf8DecodeStrict t).isSome
        rw [decode2 hnb hr hc, isSome_map_eq]) hrest (ih hrest) p hp
    intro x hx
    simp only [List.mem_cons, List.mem_singleton] at hx
    rcases hx with rfl | rfl | hx
    · omega
    · exact isCont_ne10 hc
    · simp at hx
  | case4 b hnb hr b2 rest hnc =>
    intro hsome
    rw [decode2_bad hnb hr hnc] at hsome
    simp at hsome
  | case5 b hnb hr =>
    intro hsome
    rw [decode2_short hnb hr] at hsome
    simp at hsome
  | case6 b hnb hnr hr3 b2 b3 rest hc ih =>
    intro hsome p hp
    have hrest : (utf8DecodeStrict rest).isSome = true := by
      rw [decode3 hnb hnr hr3 hc, isSome_map_eq] at hsome
      exact hsome
    refine pieces_step (A := [b, b2, b3]) (by simp) ?_
      (fun t => by
        show (utf8DecodeStrict (b :: b2 :: b3 :: t)).isSome = (utf8DecodeStrict t).isSome
        rw [decode3 hnb hnr hr3 hc, isSome_map_eq]) hrest (ih hrest) p hp
    intro x hx
    simp only [List.mem_cons, List.mem_singleton] at hx
    rcases hx with rfl | rfl | rfl | hx
    · omega
    · exact cont2of3_ne10 hc.1
    · exact isCont_ne10 hc.2
    · simp at hx
  | case7 b hnb hnr hr3 b2 b3 rest hnc =>
    intro hsome
    rw [decode3_bad hnb hnr hr3 hnc] at hsome
    simp at hsome
  | case8 b bs hnb hnr hr3 hshort =>
    intro hsome
    cases bs with
    | nil =>
      rw [decode3_short1 hnb hnr hr3] at hsome
      simp at hsome
    | cons b2 bs2 =>
      cases bs2 with
      | nil =>
        rw [decode3_short2 hnb hnr hr3] at hsome
        simp at hsome
      | cons b3 bs3 => exact (hshort b2 b3 bs3 rfl).elim
  | case9 b hnb hnr hn3 hr4 b2 b3 b4 rest hc ih =>
    intro hsome p hp
    have hrest : (utf8DecodeStrict rest).isSome = true := by
      rw [decode4 hnb hnr hn3 hr4 hc, isSome_map_eq] at hsome
      exact hsome
    refine pieces_step (A := [b, b2, b3, b4]) (by simp) ?_
      (fun t => by
        show (utf8DecodeStrict (b :: b2 :: b3 :: b4 :: t)).isSome =
          (utf8DecodeStrict t).isSome
        rw [decode4 hnb hnr hn3 hr4 hc, isSome_map_eq]) hrest (ih hrest) p hp
    intro x hx
    simp only [List.mem_cons, List.mem_singleton] at hx
    rcases hx with rfl | rfl | rfl | rfl | hx
    · omega
    · exact cont2of4_ne10 hc.1
    · exact isCont_ne10 hc.2.1
    · exact isCont_ne10 hc.2.2
    · simp at hx
  | case10 b hnb hnr hn3 hr4 b2 b3 b4 rest hnc =>
    intro hsome
    rw [decode4_bad hnb hnr hn3 hr4 hnc] at hsome
    simp at hsome
  | case11 b bs hnb hnr hn3 hr4 hshort =>
    intro hsome
    cases bs with
    | nil =>
      rw [decode4_short1 hnb hnr hn3 hr4] at hsome
      simp at hsome
    | cons b2 bs2 =>
      cases bs2 with
      | nil =>
        rw [decode4_short2 hnb hnr hn3 hr4] at hsome
        simp at hsome
      | cons b3 bs3 =>
        cases bs3 with
        | nil =>
          rw [decode4_short3 hnb hnr hn3 hr4] at hsome
          simp at hsome
        | cons b4 bs4 => exact (hshort b2 b3 b4 bs4 rfl).elim
  | case12 b bs hnb hnr hn3 hn4 =>
    intro hsome
    rw [decode_badlead hnb hnr hn3 hn4] at hsome
    simp at hsome

theorem headLoop_valid (f : PyStr) (n : Nat) (ls : List (List Nat))
    (h : ∀ l ∈ ls.take n, (utf8DecodeStrict l).isSome = true) :
    headLoop f n ls =
      (ls.take n).map (fun l => pyRstrip ((utf8DecodeStrict l).getD [])) := by
  rw [headLoop_spec, takeWhile_all _ h]
  simp

theorem chownUpd_none : ∀ (ms : List Entry) (key o : PyStr),
    (∀ m ∈ ms, ¬ m.name = key) → chownUpd ms key o = none := by
  intro ms
  induction ms with
  | nil => intro key o _; rfl
  | cons m ms ih =>
    intro key o h
    simp only [chownUpd, if_neg (h m (by simp))]
    rw [ih key o (fun x hx => h x (List.mem_cons_of_mem _ hx))]
    rfl

theorem chownUpd_isSome : ∀ (ms : List Entry) (key o : PyStr),
    (∃ m ∈ ms, m.name = key) → (chownUpd ms key o).isSome = true := by
  intro ms
  induction ms with
  | nil => intro key o h; simp at h
  | cons m ms ih =>
    intro key o h
    simp only [chownUpd]
    by_cases hm : m.name = key
    · rw [if_pos hm]; rfl
    · rw [if_neg hm, isSome_map_eq]
      rcases h with ⟨m2, hm2, hk⟩
      rcases List.mem_cons.mp hm2 with rfl | hm2
      · exact absurd hk hm
      · exact ih key o ⟨m2, hm2, hk⟩

theorem chownUpd_spec : ∀ (ms : List Entry) (key o : PyStr) (ms2 : List Entry),
    chownUpd ms key o = some ms2 →
    ms2.map Entry.name = ms.map Entry.name ∧ findOwner ms2 key = some o := by
  intro ms
  induction ms with
  | nil => intro key o ms2 h; simp [chownUpd] at h
  | cons m ms ih =>
    intro key o ms2 h
    simp only [chownUpd] at h
    by_cases hm : m.name = key
    · rw [if_pos hm] at h
      simp only [Option.some.injEq] at h
      subst h
      constructor
      · simp
      · simp [findOwner, List.find?, hm]
    · rw [if_neg hm] at h
      cases hupd : chownUpd ms key o with
      | none => rw [hupd] at h; simp at h
      | some ms3 =>
        rw [hupd] at h
        simp only [Option.map_some', Option.some.injEq] at h
        subst h
        obtain ⟨hn, hf⟩ := ih key o ms3 hupd
        constructor
        · simp [hn]
        · simp only [findOwner, List.find?]
          rw [show (decide (m.name = key)) = false by simp [hm]]
          exact hf

theorem dispatch_extra_args_aux (st : SessionState) (cmd : PyStr) (rest : List PyStr) :
    dispatch st (cmd :: rest) = dispatch st (cmd :: rest.take (cmdArity cmd)) := by
  by_cases h1 : cmd = s2p "ls"
  · subst h1; rw [dispatch_ls, dispatch_ls]
  · by_cases h2 : cmd = s2p "cd"
    · subst h2
      have ha : cmdArity (s2p "cd") = 1 := by decide
      rw [ha]
      cases rest with
      | nil => rfl
      | cons p r2 =>
        rw [List.take_succ_cons, List.take_zero, dispatch_cd, dispatch_cd]
    · by_cases h3 : cmd = s2p "exit"
      · subst h3; rw [dispatch_exit_cmd, dispatch_exit_cmd]
      · by_cases h4 : cmd = s2p "head"
        · subst h4
          have ha : cmdArity (s2p "head") = 1 := by decide
          rw [ha]
          cases rest with
          | nil => rfl
          | cons f r2 =>
            rw [List.take_succ_cons, List.take_zero, dispatch_head, dispatch_head]
        · by_cases h5 : cmd = s2p "chown"
          · subst h5
            have ha : cmdArity (s2p "chown") = 2 := by decide
            rw [ha]
            cases rest with
            | nil => rfl
            | cons o r2 =>
              cases r2 with
              | nil => rfl
              | cons f r3 =>
                rw [List.take_succ_cons, List.take_succ_cons, List.take_zero,
                   dispatch_chown, dispatch_chown]
          · by_cases h6 : cmd = s2p "wc"
            · subst h6
              have ha : cmdArity (s2p "wc") = 1 := by decide
              rw [ha]
              cases rest with
              | nil => rfl
              | cons f r2 =>
                rw [List.take_succ_cons, List.take_zero, dispatch_wc, dispatch_wc]
            · rw [dispatch_unknown st cmd rest h1 h2 h3 h4 h5 h6,
                 dispatch_unknown st cmd _ h1 h2 h3 h4 h5 h6]

theorem code_key_eq_claim_key {r : PyStr} (h : Shape r) :
    normalize_member_name (stripSlash r) = lstripSlash r := by
  obtain ⟨k, segs, hk, hsc, rfl⟩ := h
  rw [stripSlash_shape k segs hsc, lstripSlash_shape k segs hsc]
  exact normalize_id (inter_take2_ne segs hsc)

theorem any_pre_via_names (pre : PyStr) : ∀ (ms : List Entry),
    ms.any (fun m => pre.isPrefixOf (strippedName m)) =
      (ms.map strippedName).any (fun n => pre.isPrefixOf n) := by
  intro ms
  induction ms with
  | nil => rfl
  | cons m ms ih => simp [List.any_cons, ih]

theorem foldl_lsStep_names (cur : PyStr) : ∀ (ms : List Entry) (acc : List PyStr),
    ms.foldl (fun acc m => lsStep cur acc (strippedName m)) acc =
      (ms.map strippedName).foldl (lsStep cur) acc := by
  intro ms
  induction ms with
  | nil => intro acc; rfl
  | cons m ms ih =>
    intro acc
    simp only [List.foldl_cons, List.map_cons]
    exact ih _

example : s2p "ab" = [97, 98] := by decide
example : utf8DecodeStrict (s2p "ok") = some (s2p "ok") := by decide
example : utf8DecodeStrict [0xFF, 0xFE] = none := by decide
example : utf8DecodeStrict [0xC3, 0xA9] = some [233] := by decide
example : utf8DecodeReplace [0xF0, 0x28] = [0xFFFD, 0x28] := by decide
example : utf8DecodeReplace [0xED, 0xA0, 0x80] = [0xFFFD, 0xFFFD, 0xFFFD] := by decide
example : utf8DecodeReplace [0xE2, 0x82] = [0xFFFD] := by decide
example : utf8DecodeReplace (s2p "ab") = s2p "ab" := by decide
example : splitAfterNl (s2p "a\nb") = [s2p "a\n", s2p "b"] := by decide
example : natStr 28 = s2p "28" := by decide
example : pyNormpath (s2p "/a/./b//../c") = s2p "/a/c" := by decide
example : pyNormpath (s2p "/..") = s2p "/" := by decide
example : pyNormpath (s2p "//x") = s2p "//x" := by decide
example : pyNormpath (s2p "///x") = s2p "/x" := by decide
example : pyJoin (s2p "/a") (s2p "b") = s2p "/a/b" := by decide
example : pyJoin (s2p "/a") (s2p "/b") = s2p "/b" := by decide
example : pySplitWs (s2p "  cd  a  b ") = [s2p "cd", s2p "a", s2p "b"] := by decide
example : pyStrip (s2p "  ls  ") = s2p "ls" := by decide
example : pyRstrip (s2p "a \t") = s2p "a" := by decide

/-! ### The claims -/

/-- C1: for every command `cd P`, when the resolution of `P` against
`current_dir` is the root, `cd` succeeds and `current_dir` becomes `/`;
otherwise, when at least one entry's stripped name starts with the
resolved path (leading separator stripped) plus `/`, `cd` succeeds and
`current_dir` becomes the resolved path; otherwise `cd` reports
`No such file or directory` and `current_dir` is unchanged. -/
theorem cd_resolution_trichotomy (cur : PyStr) (members : List Entry) (p : PyStr)
    (hcur : cur.take 1 = [47]) :
    (pyNormpath (pyJoin cur p) = [47] → cdRun cur members p = ([47], none)) ∧
    (¬ pyNormpath (pyJoin cur p) = [47] →
      (∃ m ∈ members, ∃ t, strippedName m =
        (lstripSlash (pyNormpath (pyJoin cur p)) ++ [47]) ++ t) →
      cdRun cur members p = (pyNormpath (pyJoin cur p), none)) ∧
    (¬ pyNormpath (pyJoin cur p) = [47] →
      ¬ (∃ m ∈ members, ∃ t, strippedName m =
        (lstripSlash (pyNormpath (pyJoin cur p)) ++ [47]) ++ t) →
      cdRun cur members p =
        (cur, some (s2p "cd: " ++ p ++ s2p ": No such file or directory"))) := by
  have hshape : Shape (pyNormpath (pyJoin cur p)) :=
    normpath_shape _ (pyJoin_abs cur p hcur)
  have hkey := code_key_eq_claim_key hshape
  have hiff : (members.any (fun m =>
      (normalize_member_name (stripSlash (pyNormpath (pyJoin cur p))) ++ [47]).isPrefixOf
        (strippedName m)) = true) ↔
      (∃ m ∈ members, ∃ t, strippedName m =
        (lstripSlash (pyNormpath (pyJoin cur p)) ++ [47]) ++ t) := by
    rw [List.any_eq_true]
    constructor
    · rintro ⟨m, hm, hp2⟩
      obtain ⟨t, ht⟩ := isPrefixOf_iff_exists.mp hp2
      rw [hkey] at ht
      exact ⟨m, hm, t, ht⟩
    · rintro ⟨m, hm, t, ht⟩
      refine ⟨m, hm, isPrefixOf_iff_exists.mpr ⟨t, ?_⟩⟩
      rw [hkey]
      exact ht
  refine ⟨?_, ?_, ?_⟩
  · intro hroot
    rcases cdRun_cases cur members p with ⟨_, he⟩ | ⟨ha, _, _⟩ | ⟨ha, _, _⟩
    · exact he
    · exact absurd hroot ha
    · exact absurd hroot ha
  · intro hne hex
    rcases cdRun_cases cur members p with ⟨ha, _⟩ | ⟨_, _, he⟩ | ⟨_, hb, _⟩
    · exact absurd ha hne
    · exact he
    · rw [hiff.mpr hex] at hb
      simp at hb
  · intro hne hnex
    rcases cdRun_cases cur members p with ⟨ha, _⟩ | ⟨_, hb, _⟩ | ⟨_, _, he⟩
    · exact absurd ha hne
    · exact absurd (hiff.mp hb) hnex
    · exact he

/-- Witness for C1 at a concrete archive and path. -/
theorem cd_resolution_trichotomy_witness :
    (([47] : PyStr).take 1 = [47]) ∧
    cdRun [47] testMembers (s2p "dir1") = (pyNormpath (pyJoin [47] (s2p "dir1")), none) :=
  ⟨by decide,
   (cd_resolution_trichotomy [47] testMembers (s2p "dir1") (by decide)).2.1 (by decide)
     ⟨⟨s2p "dir1/file3.txt", s2p "", some (s2p "File in a directory.\nLine 2.\n")⟩,
      by decide, s2p "file3.txt", by decide⟩⟩

/-- C2 counterexample: an entry stored as `./x` and the logical path
`x` are NOT treated as the same path by `chown` — the update is
refused with a not-found error although `ls` surfaces the very same
entry under the name `x`, and an entry stored as plain `x` is updated
fine by the identical command. -/
theorem strip_storage_cex :
    (chownRun [⟨s2p "./x", s2p "old", some []⟩] [47] (s2p "o") (s2p "x")).1 =
      [⟨s2p "./x", s2p "old", some []⟩] ∧
    (chownRun [⟨s2p "./x", s2p "old", some []⟩] [47] (s2p "o") (s2p "x")).2 =
      s2p "chown: cannot access " ++ [apos] ++ s2p "x" ++ [apos] ++
        s2p ": No such file or directory" ∧
    (chownRun [⟨s2p "x", s2p "old", some []⟩] [47] (s2p "o") (s2p "x")).1 =
      [⟨s2p "x", s2p "o", some []⟩] ∧
    lsOutput [47] [⟨s2p "./x", s2p "old", some []⟩] = s2p "x  \n" := by
  refine ⟨by decide, by decide, by decide, by decide⟩

/-- C2 (amended): `cd` and `ls` compare entry names after stripping a
leading `./` from the stored name, so they depend only on the stripped
names; `head`, `wc` and `chown` strip `./` only from the resolved query
path and look the result up against the raw stored name, and since a
resolved lookup key can never begin with `./`, an entry stored with a
`./` prefix is never reachable by those three commands. -/
theorem strip_storage_asymmetry :
    (∀ (cur p : PyStr) (members members2 : List Entry),
      members.map strippedName = members2.map strippedName →
      cdRun cur members p = cdRun cur members2 p) ∧
    (∀ (cur : PyStr) (members members2 : List Entry),
      members.map strippedName = members2.map strippedName →
      lsOutput cur members = lsOutput cur members2) ∧
    (∀ cur f : PyStr, cur.take 1 = [47] → ¬ (lookupKey cur f).take 2 = [46, 47]) ∧
    (∀ (cur f : PyStr) (m : Entry), cur.take 1 = [47] →
      m.name.take 2 = [46, 47] → ¬ m.name = lookupKey cur f) := by
  have key3 : ∀ cur f : PyStr, cur.take 1 = [47] →
      ¬ (lookupKey cur f).take 2 = [46, 47] := by
    intro cur f hcur
    have hs : Shape (pyNormpath (pyJoin cur f)) :=
      normpath_shape _ (pyJoin_abs cur f hcur)
    obtain ⟨k, segs, hk, hsc, heq⟩ := hs
    unfold lookupKey
    rw [heq, lstripSlash_shape k segs hsc, normalize_id (inter_take2_ne segs hsc)]
    exact inter_take2_ne segs hsc
  refine ⟨?_, ?_, key3, ?_⟩
  · intro cur p members members2 h
    simp only [cdRun]
    rw [any_pre_via_names, h, ← any_pre_via_names]
  · intro cur members members2 h
    unfold lsOutput lsSorted lsChildrenRaw
    rw [foldl_lsStep_names, h, ← foldl_lsStep_names]
  · intro cur f m hcur hm heq2
    exact key3 cur f hcur (by rw [← heq2]; exact hm)

/-- Witness for the amended C2. -/
theorem strip_storage_asymmetry_witness :
    cdRun [47] [⟨s2p "./d/f", s2p "", none⟩] (s2p "d") =
      cdRun [47] [⟨s2p "d/f", s2p "", none⟩] (s2p "d") ∧
    ¬ (lookupKey [47] (s2p "x")).take 2 = [46, 47] :=
  ⟨strip_storage_asymmetry.1 [47] (s2p "d") _ _ (by decide),
   strip_storage_asymmetry.2.2.1 [47] (s2p "x") (by decide)⟩

/-- C3: for every existing file, `wc` decodes the content as UTF-8 with
replacement (it is total and never fails on encoding) and prints
exactly the newline count, the whitespace-delimited token count, the
length of the UTF-8 re-encoding of the replaced content, and the
filename, space-separated. -/
theorem wc_counts (members : List Entry) (cur f : PyStr) (m : Entry) (c : List Nat)
    (h1 : tarGetmember members (lookupKey cur f) = some m) (h2 : m.content = some c) :
    wcRun members cur f =
      natStr ((utf8DecodeReplace c).count 10) ++ [32] ++
      natStr (pySplitWs (utf8DecodeReplace c)).length ++ [32] ++
      natStr (utf8Len (utf8DecodeReplace c)) ++ [32] ++ f := by
  simp [wcRun, h1, h2]

/-- Witness for C3: the empty file prints `0 0 0 empty.txt`. -/
theorem wc_counts_witness :
    wcRun testMembers [47] (s2p "empty.txt") = s2p "0 0 0 empty.txt" := by
  rw [wc_counts testMembers [47] (s2p "empty.txt")
      ⟨s2p "empty.txt", s2p "", some []⟩ [] (by decide) (by decide)]
  decide

/-- C4 counterexample: a file whose content is not valid UTF-8 (a
valid first line followed by an invalid one) makes `head` print the
first file line before reporting the decode error, contradicting
`prints no file lines at all`. -/
theorem head_partial_print_cex :
    utf8DecodeStrict (s2p "ok\n" ++ [255]) = none ∧
    headRun [⟨s2p "b", s2p "", some (s2p "ok\n" ++ [255])⟩] [47] (s2p "b") =
      [s2p "ok",
       s2p "head: error reading " ++ [apos] ++ s2p "b" ++ [apos] ++
         s2p ": invalid encoding"] ∧
    ¬ headRun [⟨s2p "b", s2p "", some (s2p "ok\n" ++ [255])⟩] [47] (s2p "b") =
      [s2p "head: error reading " ++ [apos] ++ s2p "b" ++ [apos] ++
        s2p ": invalid encoding"] := by
  refine ⟨by decide, by decide, by decide⟩

/-- C4 (amended): `head` decodes its (at most 10) lines one at a time:
it prints the rstripped decoding of every line before the first
undecodable one in that window, then reports `invalid encoding` and
stops; when the first line is already invalid no file line is printed,
and invalid bytes after the 10th line are never detected. -/
theorem head_decode_linewise (members : List Entry) (cur f : PyStr) (m : Entry)
    (c : List Nat) (h1 : tarGetmember members (lookupKey cur f) = some m)
    (h2 : m.content = some c) :
    headRun members cur f =
      (((splitAfterNl c).take 10).takeWhile (fun l => (utf8DecodeStrict l).isSome)).map
        (fun l => pyRstrip ((utf8DecodeStrict l).getD [])) ++
      (if (((splitAfterNl c).take 10).takeWhile
            (fun l => (utf8DecodeStrict l).isSome)).length <
          ((splitAfterNl c).take 10).length
       then [s2p "head: error reading " ++ [apos] ++ f ++ [apos] ++
             s2p ": invalid encoding"]
       else []) := by
  have e : headRun members cur f = headLoop f 10 (splitAfterNl c) := by
    simp [headRun, h1, h2]
  rw [e, headLoop_spec]

/-- Witness for the amended C4: the `binaryfile` scenario. -/
theorem head_decode_linewise_witness :
    headRun testMembers [47] (s2p "binaryfile") =
      [s2p "head: error reading " ++ [apos] ++ s2p "binaryfile" ++ [apos] ++
       s2p ": invalid encoding"] := by
  rw [head_decode_linewise testMembers [47] (s2p "binaryfile")
      ⟨s2p "binaryfile", s2p "", some [255, 254]⟩ [255, 254] (by decide) (by decide)]
  decide

/-- C5 counterexample: `ls` writes two spaces after every name, the
last included, so its output is not the names separated by two spaces
and newline-terminated. -/
theorem ls_trailing_sep_cex :
    lsOutput [47] [⟨s2p "a", s2p "", some []⟩] = s2p "a  \n" ∧
    sepJoin (lsSorted [47] [⟨s2p "a", s2p "", some []⟩]) ++ [10] = s2p "a\n" ∧
    ¬ lsOutput [47] [⟨s2p "a", s2p "", some []⟩] =
      sepJoin (lsSorted [47] [⟨s2p "a", s2p "", some []⟩]) ++ [10] := by
  refine ⟨by decide, by decide, by decide⟩

/-- C5 (amended): `ls` prints exactly the lexicographically sorted set
of distinct non-empty first path segments of the stripped entry names
under the current prefix, each name followed by two spaces, then a
final newline; the empty set prints a bare newline. -/
theorem ls_sorted_children (cur : PyStr) (members : List Entry) :
    lsOutput cur members = tailJoin (lsSorted cur members) ++ [10] ∧
    List.Sorted (fun a b => lexLe a b = true) (lsSorted cur members) ∧
    (lsSorted cur members).Nodup ∧
    (∀ x : PyStr, x ∈ lsSorted cur members ↔
      (x ≠ [] ∧ ∃ m ∈ members, ∃ t, strippedName m = lsPrefix cur ++ t ∧
        firstSeg t = x)) := by
  refine ⟨?_, ?_, ?_, ?_⟩
  · unfold lsOutput
    rw [foldl_tailJoin]
    simp
  · exact @List.sorted_insertionSort PyStr (fun a b => lexLe a b = true) _
      ⟨lexLe_total⟩ ⟨lexLe_trans⟩ _
  · unfold lsSorted
    refine (List.perm_insertionSort _ _).nodup_iff.mpr ?_
    unfold lsChildrenRaw
    rw [foldl_lsStep_names]
    exact foldl_lsStep_nodup cur _ [] (by simp)
  · intro x
    unfold lsSorted lsChildrenRaw
    rw [List.mem_insertionSort, foldl_lsStep_names, mem_foldl_lsStep]
    constructor
    · rintro (hx | ⟨hne, n, hn, hpre, hseg⟩)
      · simp at hx
      · rcases List.mem_map.mp hn with ⟨m, hm, rfl⟩
        obtain ⟨t, ht⟩ := isPrefixOf_iff_exists.mp hpre
        refine ⟨hne, m, hm, t, ht, ?_⟩
        rw [ht, List.drop_left] at hseg
        exact hseg
    · rintro ⟨hne, m, hm, t, ht, hfs⟩
      refine Or.inr ⟨hne, strippedName m, List.mem_map.mpr ⟨m, hm, rfl⟩,
        isPrefixOf_iff_exists.mpr ⟨t, ht⟩, ?_⟩
      rw [ht, List.drop_left]
      exact hfs

/-- C6: `chown` updates the owner of the entry its filename resolves
to, a later `chown` on the same entry overwrites the previous owner,
and `chown` on a missing entry changes nothing and reports the
`cannot access` path error. -/
theorem chown_owner_update (members : List Entry) (cur o o2 f : PyStr) :
    ((∃ m ∈ members, m.name = lookupKey cur f) →
      findOwner (chownRun members cur o f).1 (lookupKey cur f) = some o) ∧
    ((∃ m ∈ members, m.name = lookupKey cur f) →
      findOwner (chownRun (chownRun members cur o2 f).1 cur o f).1
        (lookupKey cur f) = some o) ∧
    (¬ (∃ m ∈ members, m.name = lookupKey cur f) →
      chownRun members cur o f =
        (members, s2p "chown: cannot access " ++ [apos] ++ f ++ [apos] ++
          s2p ": No such file or directory")) := by
  have part1 : ∀ (ms : List Entry) (oo : PyStr),
      (∃ m ∈ ms, m.name = lookupKey cur f) →
      findOwner (chownRun ms cur oo f).1 (lookupKey cur f) = some oo := by
    intro ms oo hex
    have hsome := chownUpd_isSome ms (lookupKey cur f) oo hex
    cases hupd : chownUpd ms (lookupKey cur f) oo with
    | none => rw [hupd] at hsome; simp at hsome
    | some ms2 =>
      have hspec := chownUpd_spec ms (lookupKey cur f) oo ms2 hupd
      simp only [chownRun, hupd]
      exact hspec.2
  refine ⟨part1 members o, ?_, ?_⟩
  · intro hex
    have hsome := chownUpd_isSome members (lookupKey cur f) o2 hex
    cases hupd : chownUpd members (lookupKey cur f) o2 with
    | none => rw [hupd] at hsome; simp at hsome
    | some ms2 =>
      have hspec := chownUpd_spec members (lookupKey cur f) o2 ms2 hupd
      have hm2 : (chownRun members cur o2 f).1 = ms2 := by simp [chownRun, hupd]
      rw [hm2]
      apply part1 ms2 o
      rcases hex with ⟨m, hm, hk⟩
      have hmem : lookupKey cur f ∈ ms2.map Entry.name := by
        rw [hspec.1]
        exact List.mem_map.mpr ⟨m, hm, hk⟩
      rcases List.mem_map.mp hmem with ⟨m2, hm2m, hk2⟩
      exact ⟨m2, hm2m, hk2⟩
  · intro hnex
    have hnone : chownUpd members (lookupKey cur f) o = none := by
      apply chownUpd_none
      intro m hm hk
      exact hnex ⟨m, hm, hk⟩
    simp [chownRun, hnone]

/-- Witness for C6: update, last-write-wins, and the missing case. -/
theorem chown_owner_update_witness :
    findOwner (chownRun [⟨s2p "f", s2p "root", none⟩] [47] (s2p "o") (s2p "f")).1
      (lookupKey [47] (s2p "f")) = some (s2p "o") ∧
    findOwner (chownRun
        (chownRun [⟨s2p "f", s2p "root", none⟩] [47] (s2p "p") (s2p "f")).1
        [47] (s2p "o") (s2p "f")).1 (lookupKey [47] (s2p "f")) = some (s2p "o") ∧
    chownRun [⟨s2p "f", s2p "root", none⟩] [47] (s2p "o") (s2p "g") =
      ([⟨s2p "f", s2p "root", none⟩],
       s2p "chown: cannot access " ++ [apos] ++ s2p "g" ++ [apos] ++
         s2p ": No such file or directory") :=
  ⟨(chown_owner_update [⟨s2p "f", s2p "root", none⟩] [47] (s2p "o") (s2p "p")
      (s2p "f")).1 ⟨⟨s2p "f", s2p "root", none⟩, by decide, by decide⟩,
   (chown_owner_update [⟨s2p "f", s2p "root", none⟩] [47] (s2p "o") (s2p "p")
      (s2p "f")).2.1 ⟨⟨s2p "f", s2p "root", none⟩, by decide, by decide⟩,
   (chown_owner_update [⟨s2p "f", s2p "root", none⟩] [47] (s2p "o") (s2p "p")
      (s2p "g")).2.2 (by decide)⟩

/-- C7 counterexample: a valid file whose first line carries a trailing
space is printed with the space removed as well — `rstrip()` strips all
trailing whitespace, not only the newline. -/
theorem head_rstrip_cex :
    utf8DecodeStrict (s2p "a \n") = some (s2p "a \n") ∧
    headRun [⟨s2p "f", s2p "", some (s2p "a \n")⟩] [47] (s2p "f") = [s2p "a"] ∧
    ¬ headRun [⟨s2p "f", s2p "", some (s2p "a \n")⟩] [47] (s2p "f") = [s2p "a "] := by
  refine ⟨by decide, by decide, by decide⟩

/-- C7 (amended): for every existing file with valid UTF-8 content,
`head` prints exactly `min(n, 10)` lines where `n` is the number of
lines, each shown with ALL trailing whitespace stripped (Python
`rstrip`), the trailing newline included. -/
theorem head_min_ten (members : List Entry) (cur f : PyStr) (m : Entry) (c : List Nat)
    (h1 : tarGetmember members (lookupKey cur f) = some m) (h2 : m.content = some c)
    (h3 : (utf8DecodeStrict c).isSome = true) :
    headRun members cur f =
      ((splitAfterNl c).take 10).map (fun l => pyRstrip ((utf8DecodeStrict l).getD [])) ∧
    (headRun members cur f).length = min (splitAfterNl c).length 10 := by
  have e : headRun members cur f = headLoop f 10 (splitAfterNl c) := by
    simp [headRun, h1, h2]
  have hval : ∀ l ∈ (splitAfterNl c).take 10, (utf8DecodeStrict l).isSome = true :=
    fun l hl => decode_lines_ok c h3 l (List.mem_of_mem_take hl)
  constructor
  · rw [e, headLoop_valid f 10 _ hval]
  · rw [e, headLoop_valid f 10 _ hval]
    simp [List.length_take, Nat.min_comm]

/-- Witness for the amended C7 on a two-line file. -/
theorem head_min_ten_witness :
    headRun testMembers [47] (s2p "file1.txt") =
      [s2p "Hello World", s2p "This is a test"] ∧
    (headRun testMembers [47] (s2p "file1.txt")).length =
      min (splitAfterNl (s2p "Hello World\nThis is a test\n")).length 10 := by
  have h := head_min_ten testMembers [47] (s2p "file1.txt")
    ⟨s2p "file1.txt", s2p "", some (s2p "Hello World\nThis is a test\n")⟩
    (s2p "Hello World\nThis is a test\n") (by decide) (by decide) (by decide)
  exact ⟨by rw [h.1]; decide, h.2⟩

/-- C8 counterexample: the recorded startup row holds the stripped
text, not the verbatim line, and a blank interactive line IS dispatched
and recorded. -/
theorem log_blank_verbatim_cex :
    sessionLog [] (s2p "u") [s2p " ls "] [s2p " "] =
      [[s2p "User", s2p "Action"], [s2p "u", s2p "ls"], [s2p "u", s2p " "]] ∧
    ¬ s2p "ls" = s2p " ls " ∧ pyStrip (s2p " ") = [] := by
  refine ⟨by decide, by decide, by decide⟩

/-- C9 counterexample: with an entry named `a/../x`, `..` is a child
directory of `/a`; `cd ..` from `/a` succeeds (to `/`), and a following
`cd ..` leaves `current_dir` at `/`, not back at `/a`. -/
theorem cd_roundtrip_cex :
    Reachable [⟨s2p "a/../x", s2p "", some []⟩] (s2p "/a") ∧
    childDir [⟨s2p "a/../x", s2p "", some []⟩] (s2p "/a") (s2p "..") ∧
    (cdRun (s2p "/a") [⟨s2p "a/../x", s2p "", some []⟩] (s2p "..")).2 = none ∧
    ¬ (cdRun (cdRun (s2p "/a") [⟨s2p "a/../x", s2p "", some []⟩] (s2p "..")).1
        [⟨s2p "a/../x", s2p "", some []⟩] (s2p "..")).1 = s2p "/a" := by
  refine ⟨?_, ?_, by decide, by decide⟩
  · have h : s2p "/a" = (cdRun [47] [⟨s2p "a/../x", s2p "", some []⟩] (s2p "a")).1 := by
      decide
    rw [h]
    exact Reachable.step [47] (s2p "a") Reachable.root (by decide)
  · exact ⟨by decide, by decide,
      ⟨s2p "a/../x", s2p "", some []⟩, by decide, s2p "x", by decide⟩

/-- C9 (amended): for every reachable directory `D` and every child
directory `C` of `D` other than the literal names `.` and `..`,
`cd C` from `D` succeeds, and a following `cd ..` restores
`current_dir` to exactly `D`; `..` stays clamped at the root. -/
theorem cd_child_parent_roundtrip (members : List Entry) (D C : PyStr)
    (hreach : Reachable members D) (hchild : childDir members D C)
    (hdot : C ≠ [46]) (hddot : C ≠ [46, 46]) :
    (cdRun D members C).2 = none ∧
      cdRun (cdRun D members C).1 members [46, 46] = (D, none) := by
  obtain ⟨k, segs, hk, hsc, rfl⟩ := reachable_shape hreach
  obtain ⟨hCne, hCfree, hex⟩ := hchild
  have hC : cleanSeg C := ⟨hCne, hdot, hddot, hCfree⟩
  have h1 := cdRun_into_child k segs members C hk hsc hC hex
  rw [h1]
  exact ⟨rfl, cdRun_dotdot k segs members C hk hsc hC hreach⟩

/-- Witness for the amended C9: `cd dir1` from the root, then `cd ..`. -/
theorem cd_child_parent_roundtrip_witness :
    (cdRun [47] testMembers (s2p "dir1")).2 = none ∧
      cdRun (cdRun [47] testMembers (s2p "dir1")).1 testMembers [46, 46] =
        ([47], none) :=
  cd_child_parent_roundtrip testMembers [47] (s2p "dir1") Reachable.root
    ⟨by decide, by decide,
     ⟨s2p "dir1/file3.txt", s2p "", some (s2p "File in a directory.\nLine 2.\n")⟩,
     by decide, s2p "file3.txt", by decide⟩
    (by decide) (by decide)

/-- C10: tokens beyond a command's required operands are silently
ignored: dispatching any token list behaves exactly as if it had been
truncated to the command name plus its required operand count, so no
error is ever reported for surplus arguments. -/
theorem dispatch_extra_args (st : SessionState) (cmd : PyStr) (rest : List PyStr) :
    dispatch st (cmd :: rest) = dispatch st (cmd :: rest.take (cmdArity cmd)) :=
  dispatch_extra_args_aux st cmd rest
